import Mathlib

/-!
# Verification of the Wingman conversation/tool-call orchestration engine

Shallow embedding of the conversation-history and tool-call bookkeeping
of `wingmen/open_ai_wingman.py` (class `OpenAiWingman`), together with
theorems settling the specification claims about it.

Messages are either plain dicts (`user`/`tool`/plain `assistant`
messages) or `ChatCompletionMessage` objects (assistant messages carrying
`tool_calls`).  We model both with a single `Message` structure:
`toolCalls = none` models a dict message (no `tool_calls` attribute),
`toolCalls = some tcs` models an object message.  `toolCallId = none`
models an absent `tool_call_id` key.  Python index arithmetic in
`_update_tool_response` can go negative, so the searches there are
modelled on `Int` with Python slice semantics (`pySliceTo`, `pySliceFrom`,
`pySlice`, `pyDelSlice`).  An operation that can raise an exception
returns an `Option`: `none` models the exception escaping the function.
-/

namespace Wingman

/-- Message roles used by the conversation history. -/
inductive Role where
  | system
  | user
  | assistant
  | tool
deriving DecidableEq, Repr

instance : Inhabited Role := ⟨Role.user⟩

/-- A tool call as produced by the provider (`ChatCompletionMessageToolCall`):
`id` is `none` when the provider supplied no id (Python `None`), and the
function name and raw JSON arguments live in `fname`/`argsJson`. -/
structure ToolCall where
  id : Option String
  fname : String
  argsJson : String := ""
deriving DecidableEq, Repr

/-- One message of the conversation history.  `toolCalls = none` models a
plain dict message (no `tool_calls` attribute); `toolCalls = some tcs`
models a `ChatCompletionMessage` object. -/
structure Message where
  role : Role
  content : String
  toolCalls : Option (List ToolCall) := none
  toolCallId : Option String := none
  toolName : Option String := none
deriving DecidableEq, Repr

instance : Inhabited Message := ⟨{ role := Role.user, content := "" }⟩

/-- The mutable per-wingman state the claims are about:
`messages` (the conversation history), `pending_tool_calls`, and
`last_used_instant_responses` (filler bookkeeping). -/
structure WState where
  messages : List Message
  pending : List String
  lastUsedInstant : List Nat
deriving DecidableEq, Repr

/-- Python truthiness of an optional-string tool-call id:
`None` and `""` are falsy. -/
def idTruthy (o : Option String) : Bool :=
  match o with
  | some s => s ≠ ""
  | none => false

/-- Normalize a Python index: a negative index counts from the end. -/
def pyIdx (len : Nat) (i : Int) : Int :=
  if i < 0 then (len : Int) + i else i

/-- Python slice `xs[:b]`. -/
def pySliceTo (xs : List α) (b : Int) : List α :=
  xs.take (pyIdx xs.length b).toNat

/-- Python slice `xs[b:]`. -/
def pySliceFrom (xs : List α) (b : Int) : List α :=
  xs.drop (pyIdx xs.length b).toNat

/-- Python slice `xs[a:b]`. -/
def pySlice (xs : List α) (a b : Int) : List α :=
  (xs.take (pyIdx xs.length b).toNat).drop (pyIdx xs.length a).toNat

/-- Python `del xs[a:b]`. -/
def pyDelSlice (xs : List α) (a b : Int) : List α :=
  let a' := (pyIdx xs.length a).toNat
  let b' := (pyIdx xs.length b).toNat
  if a' ≥ b' then xs else xs.take a' ++ xs.drop b'

/-- `_add_tool_response(tool_call, response, completed)`: append a tool
message (with `tool_call_id`/`name` keys only when present on the tool
call), and register the id as pending when it is truthy and the response
is not yet completed. -/
def addToolResponse (s : WState) (tc : ToolCall) (response : String)
    (completed : Bool) : WState :=
  let msg : Message :=
    { role := Role.tool, content := response, toolCallId := tc.id,
      toolName := some tc.fname }
  let s := { s with messages := s.messages ++ [msg] }
  if idTruthy tc.id && !completed then
    { s with pending := s.pending ++ [tc.id.getD ""] }
  else s

/-- The skill environment consulted by `_add_gpt_response`:
which function names belong to a registered skill (`tool_skills`), and the
per-skill `is_waiting_response_needed` / `is_summarize_needed` predicates. -/
structure SkillEnv where
  toolSkills : List String
  waitingNeeded : String → Bool
  summarizeNeeded : String → Bool

/-- The trivial skill environment (no skills registered). -/
def SkillEnv.empty : SkillEnv := ⟨[], fun _ => false, fun _ => false⟩

/-- One step of the `_add_gpt_response` tool-call loop: skip falsy-id tool
calls, otherwise append a `"Loading.."` placeholder, consult the skill
predicates, and record the function name in `unique_tools`. -/
def addGptStep (env : SkillEnv) (acc : WState × List String × Bool × Bool)
    (tc : ToolCall) : WState × List String × Bool × Bool :=
  let (s, uniq, w, sm) := acc
  if !idTruthy tc.id then acc
  else
    let s := addToolResponse s tc "Loading.." false
    let w := w || (env.toolSkills.contains tc.fname && env.waitingNeeded tc.fname)
    let sm := sm || (env.toolSkills.contains tc.fname && env.summarizeNeeded tc.fname)
    let uniq := if uniq.contains tc.fname then uniq else uniq ++ [tc.fname]
    (s, uniq, w, sm)

/-- `_add_gpt_response(message, tool_calls)`: append the assistant message
verbatim, add a `"Loading.."` placeholder tool message for every tool call
with a truthy id, and compute the `(is_waiting_response_needed,
is_summarize_needed)` pair. -/
def addGptResponse (env : SkillEnv) (s : WState) (msg : Message)
    (toolCalls : Option (List ToolCall)) : WState × Bool × Bool :=
  let s := { s with messages := s.messages ++ [msg] }
  match toolCalls with
  | none => (s, false, false)
  | some tcs =>
    if tcs.isEmpty then (s, false, false)
    else
      let (s, uniq, w, sm) := tcs.foldl (addGptStep env) (s, [], false, false)
      let w := if uniq.length = 1 && uniq.contains "execute_command" then true else w
      (s, w, sm)

/-- Index of the newest tool message carrying the given `tool_call_id`
(the first loop of `_update_tool_response`, which searches from the end). -/
def lastToolMatchIdx (msgs : List Message) (toolCallId : String) : Option Nat :=
  (List.range msgs.length).reverse.find? fun p =>
    match msgs.get? p with
    | some m => decide (m.role = Role.tool ∧ m.toolCallId = some toolCallId)
    | none => false

/-- Index left by the assistant-search loop of `_update_tool_response`:
the nearest assistant message strictly before position `p`, or `0` when
none exists (the loop decrements the index all the way down). -/
def ownerIdx (msgs : List Message) (p : Nat) : Nat :=
  match (List.range p).reverse.find? fun q =>
    match msgs.get? q with
    | some m => decide (m.role = Role.assistant)
    | none => false with
  | some q => q
  | none => 0

/-- Length of the maximal run of `user` messages at the end of a list
(the user-search loop of `_update_tool_response` walks backwards over
exactly this run). -/
def trailingUsers (msgs : List Message) : Nat :=
  (msgs.reverse.takeWhile fun m => decide (m.role = Role.user)).length

/-- The `end_index` scan of `_update_tool_response`: walk forward from
`start_index`; once a tool message has been seen, stop one position before
the next user message. -/
def endScan : List Message → Bool → Int → Int
  | [], _, e => e
  | m :: rest, reached, e =>
    let reached := reached || decide (m.role = Role.tool)
    if reached && decide (m.role = Role.user) then e - 1
    else endScan rest reached (e + 1)

/-- `_update_tool_response(tool_call_id, response)`.  Returns the new state
together with `some b` for a normal return of `b`, or `none` when the
Python code would raise (attribute access `messages[index].tool_calls` on
a dict message, or iterating a `None` `tool_calls`); in the `none` case
the state still carries the mutations performed before the raise. -/
def updateToolResponse (s : WState) (toolCallId : String) (response : String) :
    WState × Option Bool :=
  if toolCallId = "" then (s, some false)
  else
    match lastToolMatchIdx s.messages toolCallId with
    | none => (s, some false)
    | some p =>
      let msgs := s.messages.set p
        { s.messages.getD p default with content := response }
      let pend := if s.pending.contains toolCallId
        then s.pending.erase toolCallId else s.pending
      let s := { s with messages := msgs, pending := pend }
      if p = 0 then (s, some false)
      else
        let q := ownerIdx s.messages p
        match (s.messages.getD q default).toolCalls with
        | none => (s, none)
        | some tcs =>
          let completed := tcs.all fun tc =>
            match tc.id with
            | some x => !s.pending.contains x
            | none => true
          if !completed then (s, some true)
          else
            let i0 : Int := (q : Int) - 1
            let startIndex : Int := i0 - (trailingUsers (pySliceTo s.messages i0) : Int)
            let e0 := endScan (pySliceFrom s.messages startIndex) false startIndex
            let endIndex := if e0 = (s.messages.length : Int) then e0 - 1 else e0
            let block := pySlice s.messages startIndex (endIndex + 1)
            if endIndex = (s.messages.length : Int) - 1 then (s, some true)
            else
              ({ s with
                 messages := pyDelSlice s.messages startIndex (endIndex + 1) ++ block },
               some true)

/-- The cutoff loop of `_cleanup_conversation_history`, iterating over the
reversed message list: decrement the cutoff for every processed message,
and break (skipping the decrement) when the `remember`-th user message
(counted from the newest) is found.  Returns the final
`(cutoff_index, user_message_count)`. -/
def cutoffLoop : List Message → Nat → Nat → Nat → Nat × Nat
  | [], cutoff, count, _ => (cutoff, count)
  | m :: rest, cutoff, count, remember =>
    if m.role = Role.user then
      if count + 1 = remember then (cutoff, count + 1)
      else cutoffLoop rest (cutoff - 1) (count + 1) remember
    else cutoffLoop rest (cutoff - 1) count remember

/-- The pending-id sweep of `_cleanup_conversation_history`: for every
deleted tool message whose `tool_call_id` is currently pending, remove
that id (first occurrence) from the pending list. -/
def sweepPending : List Message → List String → List String
  | [], pend => pend
  | m :: rest, pend =>
    sweepPending rest
      (match m.toolCallId with
       | some x =>
         if m.role = Role.tool ∧ pend.contains x then pend.erase x else pend
       | none => pend)

/-- `_cleanup_conversation_history()`: apply the "remember last N user
messages" retention policy (`remember = none` models an unset
configuration). -/
def cleanupConversationHistory (remember : Option Nat) (s : WState) : WState :=
  match remember with
  | none => s
  | some remember =>
    if s.messages.length = 0 then s
    else
      let (cutoff, count) :=
        cutoffLoop s.messages.reverse s.messages.length 0 remember
      if count < remember then s
      else
        { s with
          messages := s.messages.drop cutoff,
          pending := sweepPending (s.messages.take cutoff) s.pending }

/-- `add_user_message(content)`: trim the history per the retention policy,
then append a user message. -/
def addUserMessage (remember : Option Nat) (s : WState) (content : String) :
    WState :=
  let s := cleanupConversationHistory remember s
  { s with messages := s.messages ++ [{ role := Role.user, content := content }] }

/-- `add_assistant_message(content)`: append a plain assistant message. -/
def addAssistantMessage (s : WState) (content : String) : WState :=
  { s with messages := s.messages ++ [{ role := Role.assistant, content := content }] }

/-- `reset_conversation_history()`: replace the message list with the empty
list; no other field is touched. -/
def resetConversationHistory (s : WState) : WState :=
  { s with messages := [] }

/-! ## Commands and instant activation -/

/-- A configured command (external command contract: `{name, responses[],
force_instant_activation}`).  The command name is `cname`. -/
structure CommandConfig where
  cname : String
  responses : List String
  forceInstantActivation : Bool
deriving DecidableEq, Repr

/-- The configured conversation provider, as far as
`add_forced_assistant_command_calls` distinguishes it: OpenAI, Wingman Pro
(with its conversation deployment string), or any other provider. -/
inductive ConvProvider where
  | openai
  | wingmanPro (deployment : String)
  | other
deriving DecidableEq, Repr

/-- The provider test of `add_forced_assistant_command_calls`: OpenAI, or
Wingman Pro with `"gpt"` occurring in the lower-cased deployment. -/
def isOpenAiStyle : ConvProvider → Bool
  | ConvProvider.openai => true
  | ConvProvider.wingmanPro d => (d.toLower.splitOn "gpt").length > 1
  | ConvProvider.other => false

/-- `add_forced_assistant_command_calls(commands)`: for OpenAI-style
providers, build a synthetic assistant message with one `execute_command`
tool call per command (ids generated by `mkId`, modelling
`call_<uuid>`), add it via `_add_gpt_response`, then resolve each
placeholder with `"OK"` via `_update_tool_response`.  For any other
provider this is a no-op.  Returns `none` when an update raises. -/
def addForcedAssistantCommandCalls (env : SkillEnv) (style : Bool)
    (mkId : Nat → String) (s : WState) (commands : List CommandConfig) :
    Option WState :=
  if style then
    let tcs := commands.enum.map fun (i, c) =>
      ({ id := some (mkId i), fname := "execute_command",
         argsJson := "\x7b\x22command_name\x22: \x22" ++ c.cname ++ "\x22\x7d" } : ToolCall)
    let msg : Message := { role := Role.assistant, content := "", toolCalls := some tcs }
    let s := (addGptResponse env s msg (some tcs)).1
    tcs.foldlM (fun s tc =>
      match updateToolResponse s (tc.id.getD "") "OK" with
      | (s', some _) => some s'
      | (_, none) => none) s
  else some s

/-- Python `list(dict.fromkeys(xs))`: remove duplicates keeping the first
occurrence of each element. -/
def pyDedup (xs : List String) : List String :=
  xs.foldl (fun acc x => if acc.contains x then acc else acc ++ [x]) []

/-- Python `response.endswith(".")`: the last character is `'.'`. -/
def endsWithDot (s : String) : Bool :=
  s.data.getLast? == some '.'

/-- The response-collection loop of `_try_instant_activation`: one selected
response per command that has configured responses. -/
def selectResponses (select : CommandConfig → String)
    (commands : List CommandConfig) : List String :=
  commands.foldl (fun acc c => if c.responses.isEmpty then acc else acc ++ [select c]) []

/-- `_try_instant_activation(transcript)`.  `matcher` models the base
class's `_execute_instant_activation_command` (modelled from the spec: the
transcript is matched against the configured instant-activation commands,
which are executed; the matched commands are returned).  `select` models
`_select_command_response` (modelled from the spec: picks one of the
command's configured responses).  Returns `(instant_response,
instant_command_executed, state)`, or `none` when an update raises. -/
def tryInstantActivation (env : SkillEnv) (style : Bool) (mkId : Nat → String)
    (select : CommandConfig → String) (matcher : String → List CommandConfig)
    (s : WState) (transcript : String) :
    Option (Option String × Bool × WState) :=
  let commands := matcher transcript
  if commands.isEmpty then some (none, false, s)
  else
    match addForcedAssistantCommandCalls env style mkId s commands with
    | none => none
    | some s =>
      let responses := selectResponses select commands
      if responses.length = commands.length then
        let responses := pyDedup responses
        let responses := responses.map fun r => if endsWithDot r then r else r ++ "."
        some (some (String.intercalate " " responses), true, s)
      else some (none, true, s)

/-- The result tuple of `_get_response_for_transcript` (the `Skill`
component is dropped: skills are external collaborators). -/
structure CycleResult where
  finalText : Option String
  instantText : Option String
  interrupt : Bool
deriving DecidableEq, Repr

/-- `_get_response_for_transcript(transcript)`, with everything from the
first `_llm_call` on (the provider-call/tool-resolution loop) abstracted
as the continuation `llmPhase`, which receives the state and the
`allow_tool_calls` flag of the first provider call and reports the number
of provider calls it performs.  The instant-activation path returns before
`llmPhase` and therefore reports `0` provider calls. -/
def getResponseForTranscript (remember : Option Nat) (env : SkillEnv)
    (style : Bool) (mkId : Nat → String)
    (select : CommandConfig → String) (matcher : String → List CommandConfig)
    (llmPhase : WState → Bool → WState × Nat × CycleResult)
    (s : WState) (transcript : String) : Option (WState × Nat × CycleResult) :=
  let s := addUserMessage remember s transcript
  match tryInstantActivation env style mkId select matcher s transcript with
  | none => none
  | some (instantResponse, executed, s) =>
    match instantResponse with
    | some r =>
      if r ≠ "" then
        let s := addAssistantMessage s r
        let rOut := if r = "." then none else some r
        some (s, 0, ⟨rOut, rOut, true⟩)
      else
        let (s, n, ret) := llmPhase s (executed = false)
        some (s, n, ret)
    | none =>
      let (s, n, ret) := llmPhase s (executed = false)
      some (s, n, ret)

/-! ## Tool-call execution and error handling -/

/-- `OpenAiWingman._execute_command`: run the base implementation
(modelled abstractly by `base`, whose return value and side effects are
ignored) and always return `"Ok"`. -/
def executeCommandOverride (base : Option CommandConfig → String)
    (cmd : Option CommandConfig) : String :=
  let x := base cmd
  let _ := x
  "Ok"

/-- Outcome of one `skill.execute_tool` invocation, as an oracle:
either a normal `(function_response, instant_response)` pair or a raised
exception (instant responses use `""` for Python falsy values). -/
inductive SkillOutcome where
  | success (resp : String) (instant : String)
  | raised
deriving DecidableEq, Repr

/-- `execute_command_by_function_call(function_name, function_args)`.
`getCommand` models the base class's command lookup, `cmdNameArg` is the
`command_name` entry of the parsed arguments (`none` models a missing
key, whose access raises `KeyError`).  Returns
`some (function_response, instant_response)` on a normal return and
`none` when an exception escapes.  A raising skill is caught inside and
yields `"ERROR DURING PROCESSING"` with a cleared instant response. -/
def executeCommandByFunctionCall (getCommand : String → Option CommandConfig)
    (select : CommandConfig → String) (toolSkills : List String)
    (skillOut : SkillOutcome) (fname : String) (cmdNameArg : Option String) :
    Option (String × String) :=
  let step1 : Option (String × String) :=
    if fname = "execute_command" then
      match cmdNameArg with
      | none => none
      | some cn =>
        let command := getCommand cn
        let fr := executeCommandOverride (fun _ => "") command
        let ir := match command with
          | some c => if c.responses.isEmpty then "" else select c
          | none => ""
        some (fr, ir)
    else some ("", "")
  match step1 with
  | none => none
  | some (fr, ir) =>
    if toolSkills.contains fname then
      match skillOut with
      | SkillOutcome.success r i => some (r, i)
      | SkillOutcome.raised => some ("ERROR DURING PROCESSING", "")
    else some (fr, ir)

/-- One tool call of a `_handle_tool_calls` batch together with the oracle
outcomes of processing it: `parsed = none` models `json.loads` raising on
malformed arguments, `parsed = some a` gives the `command_name` argument
(if present), and `skillOut` is the skill-execution outcome. -/
structure CallSpec where
  tc : ToolCall
  parsed : Option (Option String)
  skillOut : SkillOutcome
deriving DecidableEq, Repr

/-- The body of the `_handle_tool_calls` loop for one tool call, carried
out on `(state, instant_response)`: any exception (malformed JSON, missing
`command_name`, or a raise escaping `_update_tool_response`) is caught and
a fresh `"Error"` tool response is appended; otherwise the placeholder is
updated (truthy id) or a fresh completed tool response appended (falsy
id).  On the exception path `instant_response` keeps its previous value. -/
def handleOneToolCall (getCommand : String → Option CommandConfig)
    (select : CommandConfig → String) (toolSkills : List String)
    (acc : WState × String) (c : CallSpec) : WState × String :=
  let (s, inst) := acc
  match c.parsed with
  | none => (addToolResponse s c.tc "Error" true, inst)
  | some arg =>
    match executeCommandByFunctionCall getCommand select toolSkills
        c.skillOut c.tc.fname arg with
    | none => (addToolResponse s c.tc "Error" true, inst)
    | some (fr, ir) =>
      if idTruthy c.tc.id then
        match updateToolResponse s (c.tc.id.getD "") fr with
        | (s', some _) => (s', ir)
        | (s', none) => (addToolResponse s' c.tc "Error" true, ir)
      else (addToolResponse s c.tc fr true, ir)

/-- `_handle_tool_calls(tool_calls)`: process every tool call in order,
returning the final state and the last instant response. -/
def handleToolCalls (getCommand : String → Option CommandConfig)
    (select : CommandConfig → String) (toolSkills : List String)
    (s : WState) (calls : List CallSpec) : WState × String :=
  calls.foldl (handleOneToolCall getCommand select toolSkills) (s, "")

/-! ## Filler responses -/

/-- The trim of `last_used_instant_responses` performed at the start of
`_get_random_filler` (`[-2:]` when more than two entries). -/
def trimLU (lu : List Nat) : List Nat :=
  if lu.length > 2 then lu.drop (lu.length - 2) else lu

/-- `_get_random_filler()`.  The random source is modelled as the list of
values produced by `random.randint` (each taken modulo the pool size,
which `randint(0, len-1)` guarantees); the rejection loop takes the first
sample outside the trimmed last-used list.  Returns the selected filler
phrase and the new `last_used_instant_responses`, or `none` when the
sample list is exhausted (the Python loop would keep drawing). -/
def getRandomFiller (pool : List String) (lastUsed : List Nat)
    (rand : List Nat) : Option (String × List Nat) :=
  match rand.find? (fun r => !((trimLU lastUsed).contains (r % pool.length))) with
  | none => none
  | some r =>
    some (pool.getD (r % pool.length) "", trimLU lastUsed ++ [r % pool.length])

/-! ## The stale-call guard of `_llm_call` -/

/-- Events of overlapping `_llm_call` invocations: call `i` records its
token into `last_gpt_call` at dispatch time, and compares at return
time. -/
inductive LlmEvent where
  | dispatch (i : Nat)
  | finish (i : Nat)
deriving DecidableEq, Repr

/-- The value of `last_gpt_call` after a list of events (starting from
`last`): each dispatch overwrites it with that call's token. -/
def lastGptCall (tok : Nat → Nat) : List LlmEvent → Option Nat → Option Nat
  | [], last => last
  | LlmEvent.dispatch i :: rest, _ => lastGptCall tok rest (some (tok i))
  | LlmEvent.finish _ :: rest, last => lastGptCall tok rest last

/-- The value `_llm_call` returns for call `i` whose provider request
resolves after the event prefix `pre`: the completion `comp i` when
`last_gpt_call` still equals `i`'s token, otherwise `none` (the stale
result is discarded). -/
def llmCallResult (tok : Nat → Nat) (comp : Nat → α) (pre : List LlmEvent)
    (i : Nat) : Option α :=
  if lastGptCall tok pre none = some (tok i) then some (comp i) else none

/-! ## Derived views of histories used by the theorems -/

/-- A plain user message. -/
def userMsg (c : String) : Message := { role := Role.user, content := c }

/-- An assistant object message carrying tool calls. -/
def asstMsg (c : String) (tcs : List ToolCall) : Message :=
  { role := Role.assistant, content := c, toolCalls := some tcs }

/-- The tool message `_add_tool_response` builds for a tool call. -/
def toolMsgOf (tc : ToolCall) (c : String) : Message :=
  { role := Role.tool, content := c, toolCallId := tc.id, toolName := some tc.fname }

/-- The `tool_call_id`s of the tool messages of a history, in order. -/
def toolIds (msgs : List Message) : List String :=
  msgs.filterMap fun m => if m.role = Role.tool then m.toolCallId else none

/-- The `tool_call_id`s of the tool messages whose content is still the
`"Loading.."` placeholder, in order. -/
def loadingIds (msgs : List Message) : List String :=
  msgs.filterMap fun m =>
    if m.role = Role.tool ∧ m.content = "Loading.." then m.toolCallId else none

/-- Number of user messages in a history. -/
def usersCount (msgs : List Message) : Nat :=
  msgs.countP fun m => decide (m.role = Role.user)

/-- Spec-side view of the retention policy, on the reversed history:
collect messages (newest first) strictly newer than the `n`-th user
message counted from the newest. -/
def retainedAfterCut : List Message → Nat → List Message
  | [], _ => []
  | m :: rest, n =>
    if m.role = Role.user then
      if n = 1 then [] else m :: retainedAfterCut rest (n - 1)
    else m :: retainedAfterCut rest n

/-- Number of list entries strictly before the `n`-th user message of a
(reversed) history, or the whole length when fewer than `n` user messages
exist. -/
def stepsToUser : List Message → Nat → Nat
  | [], _ => 0
  | m :: rest, n =>
    if m.role = Role.user then
      if n = 1 then 0 else 1 + stepsToUser rest (n - 1)
    else 1 + stepsToUser rest n

/-! ## States reachable by the history operations

The reachability relation for the pending-set consistency claim: states
produced by `add_user_message`, `_add_gpt_response` (with fresh tool-call
ids, as produced by providers and `uuid`), `_update_tool_response` with a
response other than the literal placeholder text, completed
`_add_tool_response` appends with fresh ids, and
`_cleanup_conversation_history` — `reset_conversation_history` excluded. -/
inductive Reach (env : SkillEnv) (remember : Option Nat) : WState → Prop where
  | init : Reach env remember ⟨[], [], []⟩
  | user : ∀ s c, Reach env remember s →
      Reach env remember (addUserMessage remember s c)
  | gpt : ∀ s msg tcs, Reach env remember s →
      msg.role = Role.assistant →
      (∀ tc ∈ tcs, ∀ x, tc.id = some x →
        x ∉ toolIds s.messages ∧ x ∉ s.pending) →
      (tcs.filterMap ToolCall.id).Nodup →
      Reach env remember ((addGptResponse env s msg (some tcs)).1)
  | upd : ∀ s x r, Reach env remember s → r ≠ "Loading.." →
      Reach env remember ((updateToolResponse s x r).1)
  | toolResp : ∀ s tc r, Reach env remember s → r ≠ "Loading.." →
      (∀ x, tc.id = some x → x ∉ toolIds s.messages) →
      Reach env remember (addToolResponse s tc r true)
  | cleanup : ∀ s, Reach env remember s →
      Reach env remember (cleanupConversationHistory remember s)

/-! ## Concrete histories exercising `_update_tool_response` -/

/-- Tool call `x` of the first assistant turn in the summarize-chain
history. -/
def tcX : ToolCall := { id := some "x", fname := "skillA" }

/-- Tool call `y` of the second assistant turn in the summarize-chain
history. -/
def tcY : ToolCall := { id := some "y", fname := "skillB" }

/-- Reachable history for the ordering claim: user turn, assistant turn
with pending call `x`, follow-up assistant turn with pending call `y`
(a summarize chain adds assistant messages without a new user message),
then a further user turn:
`[user u1, assistant{x}, tool x "Loading..", assistant{y},
tool y "Loading..", user u2]`. -/
def chainState : WState :=
  addUserMessage none
    ((addGptResponse SkillEnv.empty
      ((addGptResponse SkillEnv.empty
        (addUserMessage none ⟨[], [], []⟩ "u1")
        (asstMsg "" [tcX]) (some [tcX])).1)
      (asstMsg "" [tcY]) (some [tcY])).1)
    "u2"

/-- Reachable history for the unmoved-block corner: with
`remember_messages = 1`, appending a second user turn while call `a` is
still pending trims away the first user message, leaving
`[assistant{a}, tool a "Loading..", user u2]` with `a` pending. -/
def trimmedState : WState :=
  addUserMessage (some 1)
    ((addGptResponse SkillEnv.empty
      (addUserMessage (some 1) ⟨[], [], []⟩ "u1")
      (asstMsg "" [{ id := some "a", fname := "execute_command" }])
      (some [{ id := some "a", fname := "execute_command" }])).1)
    "u2"

/-- Tool call `a` used by the trimmed-history and reset fixtures. -/
def tcA : ToolCall := { id := some "a", fname := "execute_command" }

/-- Reset applied to a reachable state with call `a` still pending. -/
def resetWithPending : WState :=
  resetConversationHistory
    ((addGptResponse SkillEnv.empty
      (addUserMessage none ⟨[], [], []⟩ "u1")
      (asstMsg "" [tcA]) (some [tcA])).1)

/-! ## Instant-activation fixtures (spec scenarios) -/

/-- The spec's instant-activation command: "turn on radio" with the
configured response "Sure thing". -/
def c7cmd : CommandConfig := ⟨"turn on radio", ["Sure thing"], true⟩

/-- An instant-activation command configured with the `"."` sentinel
response. -/
def c7cmdDot : CommandConfig := ⟨"silent cmd", ["."], true⟩

/-- Instant-activation matcher.  Modelled from the spec: the base class's
`_execute_instant_activation_command` (not part of the provided sources)
matches the transcript against the configured instant-activation commands,
executes them, and returns the matched commands. -/
def c7matcher : String → List CommandConfig := fun t =>
  if t = "turn on radio" then [c7cmd]
  else if t = "mute" then [c7cmdDot]
  else []

/-- Synthetic tool-call id generator (models `call_<uuid>`). -/
def c7mkId : Nat → String := fun _ => "call_1"

/-- Response selection.  Modelled from the spec: the base class's
`_select_command_response` (not part of the provided sources) picks one of
the command's configured responses. -/
def c7select : CommandConfig → String := fun c => c.responses.getD 0 ""

/-! ## Named states and fixtures used by the theorems -/

/-- Tool call `b` of the spec's two-call scenario. -/
def tcB : ToolCall := { id := some "b", fname := "do_skill_thing" }

/-- The spec scenario history: an assistant message with the two tool
calls `a` (`execute_command`) and `b` (`do_skill_thing`), their two
placeholders, and a later user turn. -/
def abState : WState :=
  ⟨[userMsg "u1", asstMsg "" [tcA, tcB], toolMsgOf tcA "Loading..",
    toolMsgOf tcB "Loading..", userMsg "u2"], ["a", "b"], []⟩

/-- The scenario history after `updateToolResponse("a", "Ok")`. -/
def abResolvedA : WState :=
  ⟨[userMsg "u1", asstMsg "" [tcA, tcB], toolMsgOf tcA "Ok",
    toolMsgOf tcB "Loading..", userMsg "u2"], ["b"], []⟩

/-- A variant of the scenario whose block already ends the history. -/
def abAtEnd : WState :=
  ⟨[userMsg "u1", asstMsg "" [tcA, tcB], toolMsgOf tcA "Ok",
    toolMsgOf tcB "Loading.."], ["b"], []⟩

/-- The pending-set invariant: the pending list and the tool-message ids
are duplicate-free, and the pending ids are exactly the ids of the
`"Loading.."` placeholder messages. -/
def Inv (s : WState) : Prop :=
  s.pending.Nodup ∧ (toolIds s.messages).Nodup
  ∧ ∀ x, x ∈ s.pending ↔ x ∈ loadingIds s.messages

/-- The placeholder messages `_add_gpt_response` creates for the
truthy-id tool calls. -/
def loadingPlaceholders (tcs : List ToolCall) : List Message :=
  tcs.filterMap fun tc =>
    if idTruthy tc.id then some (toolMsgOf tc "Loading..") else none

/-- The truthy ids of a tool-call list, in order. -/
def truthyIds (tcs : List ToolCall) : List String :=
  tcs.filterMap fun tc => if idTruthy tc.id then tc.id else none

/-- A reachable state with one pending placeholder (user turn followed by
an assistant turn with tool call `a`). -/
def c2ReachState : WState :=
  (addGptResponse SkillEnv.empty (addUserMessage none ⟨[], [], []⟩ "u1")
    (asstMsg "" [tcA]) (some [tcA])).1

/-! # Theorems -/



/-- **C1** (code bug): the spec's ordering invariant — every tool message
immediately follows the assistant message containing the matching
tool-call id, and a completed block is never left before a user turn that
was appended while its calls were pending — is violated by
`_update_tool_response` on reachable histories.  (1) On the summarize
chain `[u1, assistant{x}, tool x, assistant{y}, tool y, u2]`, resolving
`y` moves the block starting at the still-pending `tool x` placeholder,
leaving `tool x` separated from `assistant{x}` by `u2`.  (2) On the
trimmed history `[assistant{a}, tool a, u2]`, resolving `a` completes the
block but the relocation degenerates (the start index becomes `-1`) and
the completed block stays before `u2`. -/
theorem c1_ordering_invariant_code_bug :
    ((updateToolResponse chainState "y" "ry").1.messages
        = [userMsg "u1", asstMsg "" [tcX], userMsg "u2",
           toolMsgOf tcX "Loading..", asstMsg "" [tcY], toolMsgOf tcY "ry"]
      ∧ (updateToolResponse chainState "y" "ry").1.pending = ["x"]
      ∧ (updateToolResponse chainState "y" "ry").2 = some true)
    ∧ ((updateToolResponse trimmedState "a" "done").1.messages
        = [asstMsg "" [tcA], toolMsgOf tcA "done", userMsg "u2"]
      ∧ (updateToolResponse trimmedState "a" "done").1.pending = []
      ∧ (updateToolResponse trimmedState "a" "done").2 = some true) := by
  decide

/-- **C2** (counterexample): `reset_conversation_history` clears the
messages but not `pending_tool_calls`, so in the reachable state reached
by resetting while call `a` is pending, the pending set is nonempty while
no `"Loading.."` tool message (indeed no message at all) exists. -/
theorem c2_pending_consistency_counterexample :
    resetWithPending.pending = ["a"]
    ∧ resetWithPending.messages = []
    ∧ ¬ ∃ m ∈ resetWithPending.messages,
        m.role = Role.tool ∧ m.toolCallId = some "a" ∧ m.content = "Loading.." := by
  decide

/-- **C4** (counterexample): with `remember_messages = 1` and a history
consisting of a single user message, the claim says nothing is deleted
(there is nothing strictly before the newest user message), but
`_cleanup_conversation_history` deletes the user message itself: the
cutoff index ends up one past the N-th-from-newest user message because
the loop breaks before decrementing it. -/
theorem c4_trim_counterexample :
    (cleanupConversationHistory (some 1) ⟨[userMsg "hi"], [], []⟩).messages = []
    ∧ ([userMsg "hi"] : List Message) ≠ [] := by
  decide

/-- **C9** (counterexample): the non-repetition guarantee holds for pool
*indices*, not entries.  With the pool `["a", "a", "b"]` (size ≥ 3) whose
first two entries are equal, the first selection picks index 0 (entry
"a") and the second selection picks index 1 — a different index but the
same entry "a", repeating the most recent pick. -/
theorem c9_filler_counterexample :
    getRandomFiller ["a", "a", "b"] [] [0] = some ("a", [0])
    ∧ getRandomFiller ["a", "a", "b"] [0] [1] = some ("a", [0, 1]) := by
  decide

/-- **C10** (confirmed): `reset_conversation_history` empties the message
list and leaves every other state component — `pending_tool_calls` and
`last_used_instant_responses` — untouched, so ids pending at reset remain
pending although their placeholder messages are gone. -/
theorem c10_reset_frame (s : WState) :
    (resetConversationHistory s).messages = []
    ∧ (resetConversationHistory s).pending = s.pending
    ∧ (resetConversationHistory s).lastUsedInstant = s.lastUsedInstant :=
  ⟨rfl, rfl, rfl⟩

/-- **C7** (amended, proved): on an OpenAI-style provider, a transcript
matching an instant-activation command with a configured response makes no
provider call (the result is independent of the abstracted provider phase
and reports 0 provider calls), records the synthetic assistant
`execute_command` tool-call turn plus an `"OK"` tool response, appends the
spoken assistant response, and returns the configured text (suffixed with
`"."`) with the interrupt flag true; with the `"."` sentinel response the
returned text is `none` while the assistant turn `"."` is still
recorded. -/
theorem c7_instant_activation
    (llmPhase : WState → Bool → WState × Nat × CycleResult) :
    (getResponseForTranscript none SkillEnv.empty true c7mkId c7select
        c7matcher llmPhase ⟨[], [], []⟩ "turn on radio"
      = some
          (⟨[userMsg "turn on radio",
             asstMsg ""
               [⟨some "call_1", "execute_command",
                 "\x7b\x22command_name\x22: \x22turn on radio\x22\x7d"⟩],
             toolMsgOf
               ⟨some "call_1", "execute_command",
                 "\x7b\x22command_name\x22: \x22turn on radio\x22\x7d"⟩ "OK",
             { role := Role.assistant, content := "Sure thing." }], [], []⟩,
           0, ⟨some "Sure thing.", some "Sure thing.", true⟩))
    ∧ (getResponseForTranscript none SkillEnv.empty true c7mkId c7select
        c7matcher llmPhase ⟨[], [], []⟩ "mute"
      = some
          (⟨[userMsg "mute",
             asstMsg ""
               [⟨some "call_1", "execute_command",
                 "\x7b\x22command_name\x22: \x22silent cmd\x22\x7d"⟩],
             toolMsgOf
               ⟨some "call_1", "execute_command",
                 "\x7b\x22command_name\x22: \x22silent cmd\x22\x7d"⟩ "OK",
             { role := Role.assistant, content := "." }], [], []⟩,
           0, ⟨none, none, true⟩)) := by
  exact ⟨rfl, rfl⟩

/-- **C7** (counterexample): for a conversation provider that is not
OpenAI-style (e.g. Mistral), `add_forced_assistant_command_calls` does
nothing, so the matched instant-activation command still returns its
configured response with no provider call, but the history gains *no*
synthetic assistant tool-call turn and no `"OK"` tool response —
contradicting the claim's unconditional description of the history
effect. -/
theorem c7_instant_activation_counterexample :
    getResponseForTranscript none SkillEnv.empty false c7mkId c7select
        c7matcher (fun s _ => (s, 1, ⟨none, none, true⟩)) ⟨[], [], []⟩
        "turn on radio"
      = some
          (⟨[userMsg "turn on radio",
             { role := Role.assistant, content := "Sure thing." }], [], []⟩,
           0, ⟨some "Sure thing.", some "Sure thing.", true⟩)
    ∧ ¬ ∃ m ∈ [userMsg "turn on radio",
        ({ role := Role.assistant, content := "Sure thing." } : Message)],
        m.role = Role.tool ∨ m.toolCalls ≠ none := by
  decide

/-- **C8** (confirmed): `OpenAiWingman._execute_command` discards the base
implementation's result and always returns `"Ok"`, and the
`execute_command` function-call path therefore reports exactly `"Ok"` as
the function response to the model — for every command lookup, every
configured response set, and every argument value — provided no skill
tool shadows the name `execute_command`. -/
theorem c8_execute_command_reports_ok :
    (∀ (base : Option CommandConfig → String) (cmd : Option CommandConfig),
      executeCommandOverride base cmd = "Ok")
    ∧ ∀ (getCommand : String → Option CommandConfig)
        (select : CommandConfig → String) (toolSkills : List String)
        (skillOut : SkillOutcome) (cn : String),
        toolSkills.contains "execute_command" = false →
        (executeCommandByFunctionCall getCommand select toolSkills skillOut
          "execute_command" (some cn)).map Prod.fst = some "Ok" := by
  refine ⟨fun base cmd => rfl, ?_⟩
  intro getCommand select toolSkills skillOut cn h
  have h' : "execute_command" ∉ toolSkills := by simpa using h
  simp [executeCommandByFunctionCall, executeCommandOverride, h']

/-- Witness for C8 at a concrete command lookup, response selection and
skill table. -/
theorem c8_execute_command_reports_ok_witness :
    (executeCommandByFunctionCall
      (fun n => if n = "cmd" then some ⟨"cmd", ["Roger"], false⟩ else none)
      (fun c => c.responses.getD 0 "") ["other_skill"] SkillOutcome.raised
      "execute_command" (some "cmd")).map Prod.fst = some "Ok" :=
  c8_execute_command_reports_ok.2
    (fun n => if n = "cmd" then some ⟨"cmd", ["Roger"], false⟩ else none)
    (fun c => c.responses.getD 0 "") ["other_skill"] SkillOutcome.raised
    "cmd" rfl

/-- `last_gpt_call` over concatenated event lists. -/
theorem lastGptCall_append (tok : Nat → Nat) (xs ys : List LlmEvent)
    (l : Option Nat) :
    lastGptCall tok (xs ++ ys) l = lastGptCall tok ys (lastGptCall tok xs l) := by
  induction xs generalizing l with
  | nil => rfl
  | cons e rest ih => cases e <;> simp [lastGptCall, ih]

/-- Events without dispatches leave `last_gpt_call` unchanged. -/
theorem lastGptCall_no_dispatch (tok : Nat → Nat) (ys : List LlmEvent)
    (l : Option Nat) (h : ∀ j, LlmEvent.dispatch j ∉ ys) :
    lastGptCall tok ys l = l := by
  induction ys generalizing l with
  | nil => rfl
  | cons e rest ih =>
    cases e with
    | dispatch j => exact absurd (List.mem_cons_self _ _) (h j)
    | finish j =>
      exact ih l fun j' hj' => h j' (List.mem_cons_of_mem _ hj')

/-- If some dispatch occurs in `ys`, then `last_gpt_call` after `ys` is
the token of a dispatch of `ys`, independently of the starting value. -/
theorem lastGptCall_of_dispatch_mem (tok : Nat → Nat) (ys : List LlmEvent)
    (h : ∃ j, LlmEvent.dispatch j ∈ ys) :
    ∃ j, LlmEvent.dispatch j ∈ ys ∧
      ∀ l, lastGptCall tok ys l = some (tok j) := by
  induction ys with
  | nil => obtain ⟨j, hj⟩ := h; exact absurd hj (List.not_mem_nil _)
  | cons e rest ih =>
    by_cases hrest : ∃ j, LlmEvent.dispatch j ∈ rest
    · obtain ⟨j, hj, hval⟩ := ih hrest
      refine ⟨j, List.mem_cons_of_mem _ hj, fun l => ?_⟩
      cases e <;> simp [lastGptCall, hval]
    · obtain ⟨j, hj⟩ := h
      rcases List.mem_cons.mp hj with hhead | htail
      · cases e with
        | dispatch k =>
          refine ⟨k, List.mem_cons_self _ _, fun l => ?_⟩
          simpa [lastGptCall] using
            lastGptCall_no_dispatch tok rest (some (tok k))
              fun j' hj' => hrest ⟨j', hj'⟩
        | finish k => exact absurd hhead (by simp)
      · exact absurd ⟨j, htail⟩ hrest

/-- **C5** (confirmed): the stale-call guard of `_llm_call`.  For a call
`i` whose provider request resolves after the event prefix
`p ++ dispatch i :: q`: if any newer call was dispatched in the meantime
(a dispatch in `q`, necessarily with a different token — tokens are
distinct for distinct calls), call `i` returns `none` and its completion
is discarded rather than treated as an error; if no new dispatch
happened, `i` is still the most recent call and its completion is
returned. -/
theorem c5_stale_call_guard (tok : Nat → Nat) (comp : Nat → Nat)
    (p q : List LlmEvent) (i : Nat) :
    ((∃ j, LlmEvent.dispatch j ∈ q) →
      (∀ j, LlmEvent.dispatch j ∈ q → tok j ≠ tok i) →
      llmCallResult tok comp (p ++ LlmEvent.dispatch i :: q) i = none)
    ∧ ((∀ j, LlmEvent.dispatch j ∉ q) →
      llmCallResult tok comp (p ++ LlmEvent.dispatch i :: q) i
        = some (comp i)) := by
  have hsplit : p ++ LlmEvent.dispatch i :: q
      = (p ++ [LlmEvent.dispatch i]) ++ q := by simp
  have hbase : lastGptCall tok (p ++ [LlmEvent.dispatch i]) none
      = some (tok i) := by
    rw [lastGptCall_append]; rfl
  constructor
  · intro hex hne
    obtain ⟨j, hj, hval⟩ := lastGptCall_of_dispatch_mem tok q hex
    have : lastGptCall tok (p ++ LlmEvent.dispatch i :: q) none
        = some (tok j) := by
      rw [hsplit, lastGptCall_append, hval]
    simp only [llmCallResult, this]
    rw [if_neg]
    intro hcontra
    exact hne j hj (Option.some.inj hcontra)
  · intro hnone
    have : lastGptCall tok (p ++ LlmEvent.dispatch i :: q) none
        = some (tok i) := by
      rw [hsplit, lastGptCall_append, hbase,
        lastGptCall_no_dispatch tok q _ hnone]
    simp [llmCallResult, this]

/-- Witness for C5: with identity tokens, call 0 overlapped by a dispatch
of call 1 returns `none`; with only a non-dispatch event in between it
returns its completion. -/
theorem c5_stale_call_guard_witness :
    llmCallResult (fun n => n) (fun n => n)
      [LlmEvent.dispatch 0, LlmEvent.dispatch 1] 0 = none
    ∧ llmCallResult (fun n => n) (fun n => n)
      [LlmEvent.dispatch 0, LlmEvent.finish 1] 0 = some 0 := by
  constructor
  · refine (c5_stale_call_guard (fun n => n) (fun n => n) []
      [LlmEvent.dispatch 1] 0).1 ⟨1, by simp⟩ ?_
    intro j hj
    have hj' : j = 1 := by simpa using hj
    subst hj'
    decide
  · refine (c5_stale_call_guard (fun n => n) (fun n => n) []
      [LlmEvent.finish 1] 0).2 ?_
    intro j hj
    simp at hj

/-- Inversion of a successful `_get_random_filler` call: the result is a
pool entry at an in-range index outside the trimmed last-used list, which
is recorded at the end of the new last-used list. -/
theorem getRandomFiller_inv (pool : List String) (lu rand : List Nat)
    (e : String) (lu' : List Nat) (hp : pool ≠ [])
    (h : getRandomFiller pool lu rand = some (e, lu')) :
    ∃ i, i < pool.length ∧ e = pool.getD i "" ∧ lu' = trimLU lu ++ [i]
      ∧ i ∉ trimLU lu := by
  unfold getRandomFiller at h
  cases hfind : rand.find? (fun r => !((trimLU lu).contains (r % pool.length))) with
  | none => rw [hfind] at h; exact absurd h (by simp)
  | some r =>
    rw [hfind] at h
    simp only [Option.some.injEq, Prod.mk.injEq] at h
    obtain ⟨he, hlu⟩ := h
    have hpred := List.find?_some hfind
    have hmem : r % pool.length ∉ trimLU lu := by simpa using hpred
    exact ⟨r % pool.length, Nat.mod_lt r (List.length_pos.mpr hp),
      he.symm, hlu.symm, hmem⟩

/-- A trimmed list ending in `c` is `c` preceded by at most one entry. -/
theorem trimLU_shape (zs : List Nat) (c : Nat) :
    ∃ ws, trimLU (zs ++ [c]) = ws ++ [c] ∧ ws.length ≤ 1 := by
  unfold trimLU
  by_cases h : (zs ++ [c]).length > 2
  · rw [if_pos h]
    simp only [List.length_append, List.length_singleton] at h
    have hle : zs.length + 1 - 2 ≤ zs.length := by omega
    rw [List.length_append, List.length_singleton,
      List.drop_append_of_le_length hle]
    refine ⟨zs.drop (zs.length + 1 - 2), rfl, ?_⟩
    simp only [List.length_drop]
    omega
  · rw [if_neg h]
    simp only [List.length_append, List.length_singleton, not_lt] at h
    exact ⟨zs, rfl, by omega⟩

/-- The last element survives the trim. -/
theorem mem_trimLU_last (zs : List Nat) (c : Nat) : c ∈ trimLU (zs ++ [c]) := by
  obtain ⟨ws, hw, _⟩ := trimLU_shape zs c
  rw [hw]
  simp

/-- Both of the two last elements survive the trim when at most one entry
precedes them. -/
theorem mem_trimLU_last_two (ws : List Nat) (a b : Nat) (h : ws.length ≤ 1) :
    a ∈ trimLU (ws ++ [a, b]) ∧ b ∈ trimLU (ws ++ [a, b]) := by
  cases ws with
  | nil => simp [trimLU]
  | cons w ws' =>
    have : ws' = [] := by
      cases ws' with
      | nil => rfl
      | cons _ _ => simp at h
    subst this
    simp [trimLU]

/-- **C9** (amended, proved): three consecutive successful
`_get_random_filler` selections (pool size ≥ 3) pick pairwise distinct
pool *indices* — the third differs from both of the previous two, and the
second from the first; consequently, when the pool entries are pairwise
distinct, no selection repeats either of the previous two selected
phrases.  (As stated over entries the claim fails for pools with
duplicate entries, see the counterexample.) -/
theorem c9_filler_non_repetition (pool : List String) (L0 r1 r2 r3 : List Nat)
    (e1 e2 e3 : String) (L1 L2 L3 : List Nat)
    (hp : 3 ≤ pool.length)
    (h1 : getRandomFiller pool L0 r1 = some (e1, L1))
    (h2 : getRandomFiller pool L1 r2 = some (e2, L2))
    (h3 : getRandomFiller pool L2 r3 = some (e3, L3)) :
    ∃ i1 i2 i3, i1 < pool.length ∧ i2 < pool.length ∧ i3 < pool.length
      ∧ e1 = pool.getD i1 "" ∧ e2 = pool.getD i2 "" ∧ e3 = pool.getD i3 ""
      ∧ i2 ≠ i1 ∧ i3 ≠ i1 ∧ i3 ≠ i2
      ∧ (pool.Nodup → e2 ≠ e1 ∧ e3 ≠ e1 ∧ e3 ≠ e2) := by
  have hpne : pool ≠ [] := by
    intro hcontra
    rw [hcontra] at hp
    simp at hp
  obtain ⟨i1, hi1, he1, hL1, _⟩ := getRandomFiller_inv pool L0 r1 e1 L1 hpne h1
  obtain ⟨i2, hi2, he2, hL2, hni2⟩ := getRandomFiller_inv pool L1 r2 e2 L2 hpne h2
  obtain ⟨i3, hi3, he3, hL3, hni3⟩ := getRandomFiller_inv pool L2 r3 e3 L3 hpne h3
  have hmem1 : i1 ∈ trimLU L1 := hL1 ▸ mem_trimLU_last (trimLU L0) i1
  have hne21 : i2 ≠ i1 := fun hcontra => hni2 (hcontra ▸ hmem1)
  obtain ⟨ws, hw, hwl⟩ := trimLU_shape (trimLU L0) i1
  have hL2' : L2 = ws ++ [i1, i2] := by
    rw [hL2, hL1, hw]
    simp
  have hmem12 := mem_trimLU_last_two ws i1 i2 hwl
  have hne31 : i3 ≠ i1 := fun hcontra => hni3 (hcontra ▸ hL2' ▸ hmem12.1)
  have hne32 : i3 ≠ i2 := fun hcontra => hni3 (hcontra ▸ hL2' ▸ hmem12.2)
  refine ⟨i1, i2, i3, hi1, hi2, hi3, he1, he2, he3, hne21, hne31, hne32, ?_⟩
  intro hnd
  have hinj : ∀ a b : Nat, a < pool.length → b < pool.length → a ≠ b →
      pool.getD a "" ≠ pool.getD b "" := by
    intro a b ha hb hab hcontra
    rw [List.getD_eq_getElem pool "" ha, List.getD_eq_getElem pool "" hb] at hcontra
    have hfin : (⟨a, ha⟩ : Fin pool.length) = ⟨b, hb⟩ :=
      (hnd.get_inj_iff).mp (by simpa [List.get_eq_getElem] using hcontra)
    exact hab (congrArg Fin.val hfin)
  exact ⟨he2 ▸ he1 ▸ hinj i2 i1 hi2 hi1 hne21,
    he3 ▸ he1 ▸ hinj i3 i1 hi3 hi1 hne31,
    he3 ▸ he2 ▸ hinj i3 i2 hi3 hi2 hne32⟩

/-- `find?` over the reversed range: the hit satisfies the predicate, is
in range, and every larger index fails the predicate (it is the *last*
hit of the range). -/
theorem revRangeFind_max (n p : Nat) (pred : Nat → Bool)
    (h : (List.range n).reverse.find? pred = some p) :
    p < n ∧ pred p = true ∧ ∀ q, p < q → q < n → pred q = false := by
  induction n with
  | zero => simp at h
  | succ n ih =>
    rw [List.range_succ, List.reverse_append] at h
    simp only [List.reverse_singleton, List.singleton_append,
      List.find?_cons] at h
    cases hpred : pred n with
    | true =>
      rw [hpred] at h
      obtain rfl : n = p := by simpa using h
      exact ⟨Nat.lt_succ_self n, hpred, fun q hq hq' => by omega⟩
    | false =>
      rw [hpred] at h
      obtain ⟨hp, hpp, hmax⟩ := ih h
      refine ⟨Nat.lt_succ_of_lt hp, hpp, fun q hq hq' => ?_⟩
      rcases Nat.lt_succ_iff_lt_or_eq.mp hq' with hlt | rfl
      · exact hmax q hq hlt
      · exact hpred

/-- `find?` only depends on the predicate's values on the list. -/
theorem find?_congr_on (l : List α) (p q : α → Bool)
    (h : ∀ x ∈ l, p x = q x) : l.find? p = l.find? q := by
  induction l with
  | nil => rfl
  | cons a rest ih =>
    simp only [List.find?_cons, h a (List.mem_cons_self a rest)]
    cases q a with
    | true => rfl
    | false => exact ih fun x hx => h x (List.mem_cons_of_mem a hx)

/-- Characterization of `lastToolMatchIdx`: it returns the index of the
newest tool message carrying the id. -/
theorem lastToolMatchIdx_spec (msgs : List Message) (id : String) (p : Nat)
    (h : lastToolMatchIdx msgs id = some p) :
    p < msgs.length
    ∧ (∃ m, msgs.get? p = some m ∧ m.role = Role.tool ∧ m.toolCallId = some id)
    ∧ ∀ q m', p < q → msgs.get? q = some m' →
        ¬(m'.role = Role.tool ∧ m'.toolCallId = some id) := by
  unfold lastToolMatchIdx at h
  obtain ⟨hp, hpp, hmax⟩ := revRangeFind_max msgs.length p _ h
  refine ⟨hp, ?_, ?_⟩
  · cases hget : msgs.get? p with
    | none =>
      rw [hget] at hpp
      simp at hpp
    | some m =>
      rw [hget] at hpp
      exact ⟨m, rfl, of_decide_eq_true hpp⟩
  · intro q m' hq hget hcontra
    by_cases hqn : q < msgs.length
    · have := hmax q hq hqn
      rw [hget] at this
      exact absurd this (by simp [hcontra.1, hcontra.2])
    · rw [List.get?_eq_none.mpr (by omega)] at hget
      exact absurd hget (by simp)

/-- `ownerIdx` ignores entries at positions `≥ p`, in particular a
content update at `p` itself. -/
theorem ownerIdx_set (msgs : List Message) (p : Nat) (m' : Message) :
    ownerIdx (msgs.set p m') p = ownerIdx msgs p := by
  unfold ownerIdx
  rw [find?_congr_on]
  intro q hq
  have hqp : q ≠ p := by
    have := List.mem_range.mp (List.mem_reverse.mp hq)
    omega
  rw [List.get?_set_ne m' msgs hqp.symm]

/-- Deleting a Python slice and re-appending it permutes the list. -/
theorem pyDelSlice_append_pySlice_perm (l : List α) (a b : Int) :
    (pyDelSlice l a b ++ pySlice l a b).Perm l := by
  unfold pyDelSlice pySlice
  by_cases hab : (pyIdx l.length a).toNat ≥ (pyIdx l.length b).toNat
  · rw [if_pos hab]
    have hnil : (l.take (pyIdx l.length b).toNat).drop (pyIdx l.length a).toNat
        = [] := by
      apply List.drop_eq_nil_of_le
      rw [List.length_take]
      omega
    rw [hnil, List.append_nil]
  · rw [if_neg hab]
    push_neg at hab
    set a' := (pyIdx l.length a).toNat
    set b' := (pyIdx l.length b).toNat
    have hsplit : l.take b' = l.take a' ++ (l.take b').drop a' := by
      conv_lhs => rw [← List.take_append_drop a' (l.take b')]
      rw [List.take_take, Nat.min_eq_left (le_of_lt hab)]
    rw [List.append_assoc]
    refine List.Perm.trans
      (List.Perm.append_left (l.take a')
        (@List.perm_append_comm _ (l.drop b') ((l.take b').drop a'))) ?_
    rw [← List.append_assoc, ← hsplit, List.take_append_drop]

/-- Shape of `_update_tool_response` when a tool message matching a truthy
id exists at index `p`: the pending list gets the id removed (when
present), the filler bookkeeping is untouched, and the resulting message
list is a permutation of the original with the content at `p` replaced
(the possible relocation only moves a contiguous block to the end). -/
theorem updateToolResponse_found (s : WState) (id r : String) (p : Nat)
    (hid : id ≠ "") (hfind : lastToolMatchIdx s.messages id = some p) :
    (updateToolResponse s id r).1.pending
      = (if s.pending.contains id then s.pending.erase id else s.pending)
    ∧ (updateToolResponse s id r).1.lastUsedInstant = s.lastUsedInstant
    ∧ ((updateToolResponse s id r).1.messages).Perm
        (s.messages.set p { s.messages.getD p default with content := r }) := by
  unfold updateToolResponse
  rw [if_neg hid, hfind]
  dsimp only
  repeat' split
  all_goals first
    | exact ⟨rfl, rfl, List.Perm.refl _⟩
    | exact ⟨rfl, rfl, pyDelSlice_append_pySlice_perm _ _ _⟩

/-- The assistant-search index is strictly below the starting index. -/
theorem ownerIdx_lt (msgs : List Message) (p : Nat) (hp : p ≠ 0) :
    ownerIdx msgs p < p := by
  unfold ownerIdx
  cases hfind : (List.range p).reverse.find? (fun q =>
    match msgs.get? q with
    | some m => decide (m.role = Role.assistant)
    | none => false) with
  | none => dsimp only; omega
  | some q =>
    dsimp only
    exact List.mem_range.mp (List.mem_reverse.mp
      (List.mem_of_find?_eq_some hfind))

/-- `getD` after an update at a different index. -/
theorem getD_set_ne (l : List Message) (p q : Nat) (m d : Message)
    (h : p ≠ q) : (l.set p m).getD q d = l.getD q d := by
  rw [List.getD_eq_getElem?_getD, List.getD_eq_getElem?_getD,
    List.getElem?_set_ne h]

/-- `_update_tool_response` performs no relocation while some tool call of
the owning assistant message is still pending: the only change to the
message list is the content update at the matched index. -/
theorem updateToolResponse_no_move (s : WState) (id r : String) (p : Nat)
    (tcs : List ToolCall) (x : String)
    (hid : id ≠ "") (hfind : lastToolMatchIdx s.messages id = some p)
    (hp : p ≠ 0)
    (howner : (s.messages.getD (ownerIdx s.messages p) default).toolCalls
      = some tcs)
    (hpend : ∃ tc ∈ tcs, tc.id = some x ∧
      x ∈ (if s.pending.contains id then s.pending.erase id else s.pending)) :
    (updateToolResponse s id r).1.messages
      = s.messages.set p { s.messages.getD p default with content := r }
    ∧ (updateToolResponse s id r).2 = some true := by
  unfold updateToolResponse
  rw [if_neg hid, hfind]
  dsimp only
  rw [if_neg hp]
  rw [ownerIdx_set]
  rw [getD_set_ne _ _ _ _ _ (Nat.ne_of_gt (ownerIdx_lt s.messages p hp))]
  rw [howner]
  dsimp only
  obtain ⟨tc, htc, hxid, hxmem⟩ := hpend
  have hall : (tcs.all fun tc =>
      match tc.id with
      | some x => !(if s.pending.contains id then s.pending.erase id
          else s.pending).contains x
      | none => true) = false := by
    refine List.all_eq_false.mpr ⟨tc, htc, ?_⟩
    rw [hxid]
    simpa using hxmem
  rw [hall]
  exact ⟨rfl, rfl⟩

/-- **C3** (confirmed): `_update_tool_response` semantics.  (1) A falsy
`tool_call_id` returns `False` and changes nothing.  (2) Otherwise, when a
match exists, the matched index holds the *newest* matching tool message
(no later message matches), its content is set to the response, the id is
removed from pending, and the message list changes only by that content
update and a possible block relocation (a permutation).  (3) While some
tool call of the owning assistant message is still pending, nothing is
relocated.  (4) In the spec's two-call scenario, resolving `a` alone moves
nothing, resolving `b` afterwards promotes the whole block past the later
user turn; and (5) when the block already ends the history the relocation
is a no-op. -/
theorem c3_update_tool_response :
    (∀ s r, updateToolResponse s "" r = (s, some false))
    ∧ (∀ (s : WState) (id r : String) (p : Nat), id ≠ "" →
        lastToolMatchIdx s.messages id = some p →
        (∃ m, s.messages.get? p = some m ∧ m.role = Role.tool
          ∧ m.toolCallId = some id)
        ∧ (∀ q m', p < q → s.messages.get? q = some m' →
            ¬(m'.role = Role.tool ∧ m'.toolCallId = some id))
        ∧ ((updateToolResponse s id r).1.messages).Perm
            (s.messages.set p { s.messages.getD p default with content := r })
        ∧ (updateToolResponse s id r).1.pending
            = (if s.pending.contains id then s.pending.erase id
               else s.pending))
    ∧ (∀ (s : WState) (id r : String) (p : Nat) (tcs : List ToolCall)
        (x : String), id ≠ "" → lastToolMatchIdx s.messages id = some p →
        p ≠ 0 →
        (s.messages.getD (ownerIdx s.messages p) default).toolCalls
          = some tcs →
        (∃ tc ∈ tcs, tc.id = some x ∧
          x ∈ (if s.pending.contains id then s.pending.erase id
               else s.pending)) →
        (updateToolResponse s id r).1.messages
          = s.messages.set p { s.messages.getD p default with content := r }
        ∧ (updateToolResponse s id r).2 = some true)
    ∧ updateToolResponse abState "a" "Ok" = (abResolvedA, some true)
    ∧ updateToolResponse abResolvedA "b" "Done"
      = (⟨[userMsg "u2", userMsg "u1", asstMsg "" [tcA, tcB],
           toolMsgOf tcA "Ok", toolMsgOf tcB "Done"], [], []⟩, some true)
    ∧ updateToolResponse abAtEnd "b" "Done"
      = (⟨[userMsg "u1", asstMsg "" [tcA, tcB], toolMsgOf tcA "Ok",
           toolMsgOf tcB "Done"], [], []⟩, some true) := by
  refine ⟨fun s r => rfl, ?_, ?_, by decide, by decide, by decide⟩
  · intro s id r p hid hfind
    obtain ⟨hp, hex, hmax⟩ := lastToolMatchIdx_spec s.messages id p hfind
    obtain ⟨hpend, _, hperm⟩ := updateToolResponse_found s id r p hid hfind
    exact ⟨hex, hmax, hperm, hpend⟩
  · intro s id r p tcs x hid hfind hp howner hpend
    exact updateToolResponse_no_move s id r p tcs x hid hfind hp howner hpend

/-- Witness for C3 instantiating the hypothesis-bearing parts on the
scenario history. -/
theorem c3_update_tool_response_witness :
    (((updateToolResponse abState "a" "Ok").1.messages).Perm
      (abState.messages.set 2
        { abState.messages.getD 2 default with content := "Ok" })
     ∧ (updateToolResponse abState "a" "Ok").1.pending
        = (if abState.pending.contains "a" then abState.pending.erase "a"
           else abState.pending))
    ∧ (updateToolResponse abState "a" "Ok").1.messages
        = abState.messages.set 2
            { abState.messages.getD 2 default with content := "Ok" } := by
  have h2 := c3_update_tool_response.2.1 abState "a" "Ok" 2
    (by decide) (by decide)
  have h3 := c3_update_tool_response.2.2.1 abState "a" "Ok" 2 [tcA, tcB] "b"
    (by decide) (by decide) (by decide) (by decide)
    ⟨tcB, by decide, by decide, by decide⟩
  exact ⟨⟨h2.2.2.1, h2.2.2.2⟩, h3.1⟩

/-- Witness for C9 at a concrete pool and random stream. -/
theorem c9_filler_non_repetition_witness :
    ∃ i1 i2 i3, i1 < 3 ∧ i2 < 3 ∧ i3 < 3
      ∧ "a" = ["a", "b", "c"].getD i1 "" ∧ "b" = ["a", "b", "c"].getD i2 ""
      ∧ "c" = ["a", "b", "c"].getD i3 ""
      ∧ i2 ≠ i1 ∧ i3 ≠ i1 ∧ i3 ≠ i2
      ∧ (["a", "b", "c"].Nodup → "b" ≠ "a" ∧ "c" ≠ "a" ∧ "c" ≠ "b") :=
  c9_filler_non_repetition ["a", "b", "c"] [] [0] [1] [2] "a" "b" "c"
    [0] [0, 1] [0, 1, 2] (by decide) (by decide) (by decide) (by decide)

/-- A completed `_add_tool_response` only appends the tool message. -/
theorem addToolResponse_completed (s : WState) (tc : ToolCall) (r : String) :
    addToolResponse s tc r true
      = { s with messages := s.messages ++ [toolMsgOf tc r] } := by
  simp [addToolResponse, toolMsgOf]

/-- A raising skill execution is caught inside
`execute_command_by_function_call` and reported as the
`"ERROR DURING PROCESSING"` marker with a cleared instant response. -/
theorem execute_raised_marker (gc : String → Option CommandConfig)
    (sel : CommandConfig → String) (ts : List String) (fname : String)
    (arg : Option String) (hts : ts.contains fname = true)
    (harg : fname = "execute_command" → ∃ cn, arg = some cn) :
    executeCommandByFunctionCall gc sel ts SkillOutcome.raised fname arg
      = some ("ERROR DURING PROCESSING", "") := by
  unfold executeCommandByFunctionCall
  by_cases hf : fname = "execute_command"
  · obtain ⟨cn, rfl⟩ := harg hf
    rw [if_pos hf]
    dsimp only
    rw [hts]
    rfl
  · rw [if_neg hf]
    dsimp only
    rw [hts]
    rfl

/-- Processing a tool call whose skill raised records the
`"ERROR DURING PROCESSING"` marker on the newest tool message carrying
the call id (whether or not the update relocates or itself raises). -/
theorem handleOne_records_skill_error (gc : String → Option CommandConfig)
    (sel : CommandConfig → String) (ts : List String) (s : WState)
    (inst : String) (c : CallSpec) (arg : Option String) (p : Nat)
    (hts : ts.contains c.tc.fname = true) (hsk : c.skillOut = SkillOutcome.raised)
    (hparsed : c.parsed = some arg)
    (harg : c.tc.fname = "execute_command" → ∃ cn, arg = some cn)
    (hidt : idTruthy c.tc.id = true)
    (hfind : lastToolMatchIdx s.messages (c.tc.id.getD "") = some p) :
    ∃ m ∈ (handleOneToolCall gc sel ts (s, inst) c).1.messages,
      m.role = Role.tool ∧ m.toolCallId = some (c.tc.id.getD "")
      ∧ m.content = "ERROR DURING PROCESSING" := by
  have hid : c.tc.id.getD "" ≠ "" := by
    cases hcid : c.tc.id with
    | none => rw [hcid] at hidt; simp [idTruthy] at hidt
    | some v =>
      rw [hcid] at hidt
      simpa [idTruthy] using hidt
  obtain ⟨hplen, hex, _⟩ := lastToolMatchIdx_spec s.messages _ p hfind
  obtain ⟨hm, hget, hrole, hcid⟩ := hex
  have hgd : s.messages.getD p default = hm := by
    rw [List.getD_eq_getElem?_getD, ← List.get?_eq_getElem?, hget]
    rfl
  have hmemset : ({ hm with content := "ERROR DURING PROCESSING" } : Message)
      ∈ s.messages.set p
        { s.messages.getD p default with content := "ERROR DURING PROCESSING" } := by
    rw [hgd]
    refine List.get?_mem (n := p) ?_
    rw [List.get?_eq_getElem?, List.getElem?_set_self hplen]
  have hperm := (updateToolResponse_found s (c.tc.id.getD "")
    "ERROR DURING PROCESSING" p hid hfind).2.2
  have hmemres : ({ hm with content := "ERROR DURING PROCESSING" } : Message)
      ∈ (updateToolResponse s (c.tc.id.getD "")
          "ERROR DURING PROCESSING").1.messages :=
    (hperm.mem_iff).mpr hmemset
  have hshape : ∀ m', m' ∈ (updateToolResponse s (c.tc.id.getD "")
      "ERROR DURING PROCESSING").1.messages →
      m' ∈ (handleOneToolCall gc sel ts (s, inst) c).1.messages := by
    intro m' hm'
    unfold handleOneToolCall
    rw [hparsed]
    dsimp only
    rw [hsk, execute_raised_marker gc sel ts c.tc.fname arg hts harg]
    dsimp only
    rw [if_pos hidt]
    cases hu : updateToolResponse s (c.tc.id.getD "") "ERROR DURING PROCESSING" with
    | mk s2 flag =>
      rw [hu] at hm'
      cases flag with
      | none =>
        dsimp only
        rw [addToolResponse_completed]
        exact List.mem_append_left _ hm'
      | some b =>
        dsimp only
        exact hm'
  exact ⟨{ hm with content := "ERROR DURING PROCESSING" },
    hshape _ hmemres, hrole, hcid, rfl⟩


/-- **C6** (confirmed): error isolation in `_handle_tool_calls`.
(1) Processing a batch always continues through the whole list — the
result of `pre ++ post` is `post` folded from the state `pre` produced,
so an erroring call never aborts its siblings.  (2) An exception raised in
the handling loop (malformed JSON arguments) is caught and recorded as a
fresh `"Error"` tool response, and (3) likewise for a `KeyError` from a
missing `command_name` argument.  (4) An exception inside skill execution
is caught in `execute_command_by_function_call` and reported as
`"ERROR DURING PROCESSING"`, and (5) that marker is recorded in the
conversation history on the newest tool message carrying this call's
id. -/
theorem c6_tool_call_error_isolation :
    (∀ (gc : String → Option CommandConfig) (sel : CommandConfig → String)
      (ts : List String) (s : WState) (xs ys : List CallSpec),
      handleToolCalls gc sel ts s (xs ++ ys)
        = ys.foldl (handleOneToolCall gc sel ts)
            (handleToolCalls gc sel ts s xs))
    ∧ (∀ (gc : String → Option CommandConfig) (sel : CommandConfig → String)
      (ts : List String) (s : WState) (inst : String) (c : CallSpec),
      c.parsed = none →
      handleOneToolCall gc sel ts (s, inst) c
        = ({ s with messages := s.messages ++ [toolMsgOf c.tc "Error"] }, inst))
    ∧ (∀ (gc : String → Option CommandConfig) (sel : CommandConfig → String)
      (ts : List String) (s : WState) (inst : String) (c : CallSpec),
      c.parsed = some none → c.tc.fname = "execute_command" →
      handleOneToolCall gc sel ts (s, inst) c
        = ({ s with messages := s.messages ++ [toolMsgOf c.tc "Error"] }, inst))
    ∧ (∀ (gc : String → Option CommandConfig) (sel : CommandConfig → String)
      (ts : List String) (fname : String) (arg : Option String),
      ts.contains fname = true →
      (fname = "execute_command" → ∃ cn, arg = some cn) →
      executeCommandByFunctionCall gc sel ts SkillOutcome.raised fname arg
        = some ("ERROR DURING PROCESSING", ""))
    ∧ (∀ (gc : String → Option CommandConfig) (sel : CommandConfig → String)
      (ts : List String) (s : WState) (inst : String) (c : CallSpec)
      (arg : Option String) (p : Nat),
      ts.contains c.tc.fname = true → c.skillOut = SkillOutcome.raised →
      c.parsed = some arg →
      (c.tc.fname = "execute_command" → ∃ cn, arg = some cn) →
      idTruthy c.tc.id = true →
      lastToolMatchIdx s.messages (c.tc.id.getD "") = some p →
      ∃ m ∈ (handleOneToolCall gc sel ts (s, inst) c).1.messages,
        m.role = Role.tool ∧ m.toolCallId = some (c.tc.id.getD "")
        ∧ m.content = "ERROR DURING PROCESSING") := by
  refine ⟨?_, ?_, ?_, ?_, ?_⟩
  · intro gc sel ts s xs ys
    unfold handleToolCalls
    exact List.foldl_append _ _ xs ys
  · intro gc sel ts s inst c hparsed
    unfold handleOneToolCall
    rw [hparsed]
    dsimp only
    rw [addToolResponse_completed]
  · intro gc sel ts s inst c hparsed hf
    unfold handleOneToolCall
    rw [hparsed]
    dsimp only
    have hexec : executeCommandByFunctionCall gc sel ts c.skillOut
        c.tc.fname none = none := by
      unfold executeCommandByFunctionCall
      rw [if_pos hf]
    rw [hexec]
    dsimp only
    rw [addToolResponse_completed]
  · intro gc sel ts fname arg hts harg
    exact execute_raised_marker gc sel ts fname arg hts harg
  · intro gc sel ts s inst c arg p hts hsk hparsed harg hidt hfind
    exact handleOne_records_skill_error gc sel ts s inst c arg p hts hsk
      hparsed harg hidt hfind

/-- Witness for C6: a skill call with raising execution against the
scenario history records the error marker, and a malformed sibling is
recorded as `"Error"` without stopping the batch. -/
theorem c6_tool_call_error_isolation_witness :
    (∃ m ∈ (handleOneToolCall (fun _ => none) (fun _ => "")
        ["do_skill_thing"] (abResolvedA, "")
        ⟨tcB, some none, SkillOutcome.raised⟩).1.messages,
      m.role = Role.tool ∧ m.toolCallId = some "b"
      ∧ m.content = "ERROR DURING PROCESSING")
    ∧ handleOneToolCall (fun _ => none) (fun _ => "") []
        (abResolvedA, "") ⟨tcB, none, SkillOutcome.raised⟩
      = ({ abResolvedA with
           messages := abResolvedA.messages ++ [toolMsgOf tcB "Error"] }, "") := by
  constructor
  · exact c6_tool_call_error_isolation.2.2.2.2 (fun _ => none) (fun _ => "")
      ["do_skill_thing"] abResolvedA "" ⟨tcB, some none, SkillOutcome.raised⟩
      none 3 (by decide) rfl rfl (fun h => absurd h (by decide))
      (by decide) (by decide)
  · exact c6_tool_call_error_isolation.2.1 (fun _ => none) (fun _ => "")
      [] abResolvedA "" ⟨tcB, none, SkillOutcome.raised⟩ rfl


/-- Closed form of the cutoff loop: starting with `count = k`, it returns
the cutoff decremented by the number of entries strictly before the
`(n-k)`-th user message of the reversed history (or by the whole length
when fewer users exist), and the user count clipped at `n`. -/
theorem cutoffLoop_spec (rl : List Message) :
    ∀ (c k n : Nat), k < n →
    cutoffLoop rl c k n
      = (c - stepsToUser rl (n - k), k + min (usersCount rl) (n - k)) := by
  induction rl with
  | nil =>
    intro c k n hk
    simp [cutoffLoop, stepsToUser, usersCount]
  | cons m rest ih =>
    intro c k n hk
    unfold cutoffLoop stepsToUser
    by_cases hrole : m.role = Role.user
    · rw [if_pos hrole, if_pos hrole]
      have huc : usersCount (m :: rest) = usersCount rest + 1 := by
        unfold usersCount
        rw [List.countP_cons]
        simp [hrole]
      by_cases hbreak : k + 1 = n
      · have hnk : n - k = 1 := by omega
        rw [if_pos hbreak, hnk]
        simp only [Prod.mk.injEq]
        constructor
        · simp
        · rw [huc]
          omega
      · rw [if_neg hbreak]
        rw [ih (c - 1) (k + 1) n (by omega)]
        have hne1 : n - k ≠ 1 := by omega
        rw [if_neg hne1]
        have harg : n - (k + 1) = n - k - 1 := by omega
        rw [harg, huc]
        simp only [Prod.mk.injEq]
        constructor
        · omega
        · omega
    · rw [if_neg hrole, if_neg hrole]
      rw [ih (c - 1) k n hk]
      have huc : usersCount (m :: rest) = usersCount rest := by
        unfold usersCount
        rw [List.countP_cons]
        simp [hrole]
      rw [huc]
      simp only [Prod.mk.injEq]
      constructor
      · omega
      · trivial

/-- The spec-side retention view is the prefix of the reversed history up
to the `n`-th user message. -/
theorem retainedAfterCut_eq_take (rl : List Message) :
    ∀ n, 1 ≤ n → retainedAfterCut rl n = rl.take (stepsToUser rl n) := by
  induction rl with
  | nil => intro n hn; simp [retainedAfterCut, stepsToUser]
  | cons m rest ih =>
    intro n hn
    unfold retainedAfterCut stepsToUser
    by_cases hrole : m.role = Role.user
    · rw [if_pos hrole, if_pos hrole]
      by_cases h1 : n = 1
      · rw [if_pos h1, if_pos h1]
        rfl
      · rw [if_neg h1, if_neg h1, ih (n - 1) (by omega), Nat.add_comm,
          List.take_succ_cons]
    · rw [if_neg hrole, if_neg hrole, ih n hn, Nat.add_comm,
        List.take_succ_cons]

/-- The cutoff never exceeds the history length. -/
theorem stepsToUser_le_length (rl : List Message) :
    ∀ n, stepsToUser rl n ≤ rl.length := by
  induction rl with
  | nil => intro n; simp [stepsToUser]
  | cons m rest ih =>
    intro n
    unfold stepsToUser
    by_cases hrole : m.role = Role.user
    · rw [if_pos hrole]
      by_cases h1 : n = 1
      · rw [if_pos h1]; simp
      · rw [if_neg h1]
        have := ih (n - 1)
        simp only [List.length_cons]
        omega
    · rw [if_neg hrole]
      have := ih n
      simp only [List.length_cons]
      omega

/-- Membership after the pending sweep: an id survives exactly when it was
pending and no deleted tool message carries it (pending ids assumed
duplicate-free, which the operations maintain). -/
theorem sweepPending_mem (del : List Message) :
    ∀ (pend : List String), pend.Nodup → ∀ x,
      (x ∈ sweepPending del pend ↔ x ∈ pend ∧ x ∉ toolIds del) := by
  induction del with
  | nil => intro pend hnd x; simp [sweepPending, toolIds]
  | cons m rest ih =>
    intro pend hnd x
    unfold sweepPending
    cases hcid : m.toolCallId with
    | none =>
      have htool : toolIds (m :: rest) = toolIds rest := by
        unfold toolIds
        rw [List.filterMap_cons]
        by_cases hrole : m.role = Role.tool
        · rw [if_pos hrole, hcid]
        · rw [if_neg hrole]
      rw [htool]
      simp only [hcid]
      exact ih pend hnd x
    | some x0 =>
      simp only [hcid]
      by_cases hrole : m.role = Role.tool
      · have htool : toolIds (m :: rest) = x0 :: toolIds rest := by
          unfold toolIds
          rw [List.filterMap_cons, if_pos hrole, hcid]
        rw [htool]
        by_cases hc : pend.contains x0
        · rw [if_pos ⟨hrole, hc⟩, ih (pend.erase x0) (hnd.erase x0) x]
          have hmem := List.Nodup.mem_erase_iff (b := x0) (a := x) hnd
          constructor
          · rintro ⟨hx, hrest⟩
            obtain ⟨hne, hxp⟩ := hmem.mp hx
            refine ⟨hxp, ?_⟩
            simp only [List.mem_cons, not_or]
            exact ⟨hne, hrest⟩
          · rintro ⟨hxp, hnotin⟩
            simp only [List.mem_cons, not_or] at hnotin
            exact ⟨hmem.mpr ⟨hnotin.1, hxp⟩, hnotin.2⟩
        · rw [if_neg (by intro hcontra; exact hc hcontra.2), ih pend hnd x]
          have hx0 : x0 ∉ pend := by
            intro hcontra
            exact hc (by simpa using hcontra)
          constructor
          · rintro ⟨hx, hrest⟩
            refine ⟨hx, ?_⟩
            simp only [List.mem_cons, not_or]
            exact ⟨fun hxx => hx0 (hxx ▸ hx), hrest⟩
          · rintro ⟨hxp, hnotin⟩
            simp only [List.mem_cons, not_or] at hnotin
            exact ⟨hxp, hnotin.2⟩
      · have htool : toolIds (m :: rest) = toolIds rest := by
          unfold toolIds
          rw [List.filterMap_cons, if_neg hrole]
        rw [htool]
        rw [if_neg (by intro hcontra; exact hrole hcontra.1)]
        exact ih pend hnd x


/-- **C4** (amended, proved): the retention policy of
`_cleanup_conversation_history` with `remember_messages = n ≥ 1`.  With
fewer than `n` user messages nothing is deleted.  Otherwise the retained
history is exactly the part strictly *after* the `n`-th-from-newest user
message (that user message itself is deleted, one more than the claim
states), and an id stays pending exactly when it was pending and carried
by no deleted tool message. -/
theorem c4_trim_policy (s : WState) (n : Nat) (hn : 1 ≤ n) :
    (usersCount s.messages < n → cleanupConversationHistory (some n) s = s)
    ∧ (n ≤ usersCount s.messages → s.pending.Nodup →
        (cleanupConversationHistory (some n) s).messages
          = (retainedAfterCut s.messages.reverse n).reverse
        ∧ ∀ x, x ∈ (cleanupConversationHistory (some n) s).pending
            ↔ x ∈ s.pending ∧ x ∉ toolIds (s.messages.take
                (s.messages.length
                  - (retainedAfterCut s.messages.reverse n).length))) := by
  unfold cleanupConversationHistory
  dsimp only
  have hlen : s.messages.reverse.length = s.messages.length :=
    List.length_reverse _
  have hucount : usersCount s.messages.reverse = usersCount s.messages := by
    unfold usersCount
    exact List.countP_reverse _ _
  by_cases hemp : s.messages.length = 0
  · rw [if_pos hemp]
    have hmsgs : s.messages = [] := List.length_eq_zero.mp hemp
    constructor
    · intro _
      rfl
    · intro hge _
      rw [hmsgs] at hge
      simp [usersCount] at hge
      omega
  · rw [if_neg hemp]
    rw [cutoffLoop_spec s.messages.reverse s.messages.length 0 n (by omega)]
    simp only [Nat.sub_zero, Nat.zero_add]
    constructor
    · intro hlt
      have hminlt : min (usersCount s.messages.reverse) n < n :=
        lt_of_le_of_lt (by rw [hucount]; exact Nat.min_le_left _ _) hlt
      rw [if_pos hminlt]
    · intro hge hnd
      have hminn : min (usersCount s.messages.reverse) n = n :=
        Nat.min_eq_right (by omega)
      rw [hminn, if_neg (lt_irrefl n)]
      have hjle : stepsToUser s.messages.reverse n ≤ s.messages.length := by
        rw [← hlen]
        exact stepsToUser_le_length s.messages.reverse n
      have hret : retainedAfterCut s.messages.reverse n
          = s.messages.reverse.take (stepsToUser s.messages.reverse n) :=
        retainedAfterCut_eq_take s.messages.reverse n hn
      have hretlen : (retainedAfterCut s.messages.reverse n).length
          = stepsToUser s.messages.reverse n := by
        rw [hret, List.length_take]
        omega
      constructor
      · rw [hret, List.reverse_take, hlen, List.reverse_reverse]
      · intro x
        rw [hretlen]
        exact sweepPending_mem _ s.pending hnd x

/-- Witness for C4 on concrete histories: a history with one user message
and limit 2 is untouched; the scenario history with limit 1 is trimmed to
the spec-side retention view. -/
theorem c4_trim_policy_witness :
    cleanupConversationHistory (some 2) trimmedState = trimmedState
    ∧ (cleanupConversationHistory (some 1) abState).messages
        = (retainedAfterCut abState.messages.reverse 1).reverse := by
  constructor
  · exact (c4_trim_policy trimmedState 2 (by decide)).1 (by decide)
  · exact ((c4_trim_policy abState 1 (by decide)).2 (by decide) (by decide)).1



/-- Every placeholder id is a tool-message id. -/
theorem mem_toolIds_of_mem_loadingIds (msgs : List Message) (x : String)
    (h : x ∈ loadingIds msgs) : x ∈ toolIds msgs := by
  unfold loadingIds at h
  unfold toolIds
  obtain ⟨m, hm, hcond⟩ := List.mem_filterMap.mp h
  refine List.mem_filterMap.mpr ⟨m, hm, ?_⟩
  by_cases hc : m.role = Role.tool ∧ m.content = "Loading.."
  · rw [if_pos hc] at hcond
    rw [if_pos hc.1]
    exact hcond
  · rw [if_neg hc] at hcond
    exact absurd hcond (by simp)

/-- `loadingIds` membership unfolded to message existence. -/
theorem loadingIds_mem_iff (msgs : List Message) (x : String) :
    x ∈ loadingIds msgs
      ↔ ∃ m ∈ msgs, m.role = Role.tool ∧ m.toolCallId = some x
          ∧ m.content = "Loading.." := by
  unfold loadingIds
  rw [List.mem_filterMap]
  constructor
  · rintro ⟨m, hm, hcond⟩
    by_cases hc : m.role = Role.tool ∧ m.content = "Loading.."
    · rw [if_pos hc] at hcond
      exact ⟨m, hm, hc.1, hcond, hc.2⟩
    · rw [if_neg hc] at hcond
      exact absurd hcond (by simp)
  · rintro ⟨m, hm, hrole, hcid, hcont⟩
    exact ⟨m, hm, by rw [if_pos ⟨hrole, hcont⟩]; exact hcid⟩

/-- Effect of the `_add_gpt_response` tool-call loop on the state. -/
theorem addGptStep_fold (env : SkillEnv) (tcs : List ToolCall) :
    ∀ (s : WState) (u : List String) (w sm : Bool),
    (tcs.foldl (addGptStep env) (s, u, w, sm)).1
      = { s with messages := s.messages ++ loadingPlaceholders tcs,
                 pending := s.pending ++ truthyIds tcs } := by
  induction tcs with
  | nil =>
    intro s u w sm
    simp [loadingPlaceholders, truthyIds]
  | cons tc rest ih =>
    intro s u w sm
    rw [List.foldl_cons]
    have happ : addGptStep env (s, u, w, sm) tc
        = if !idTruthy tc.id then (s, u, w, sm)
          else (addToolResponse s tc "Loading.." false,
            (if u.contains tc.fname then u else u ++ [tc.fname]),
            w || (env.toolSkills.contains tc.fname && env.waitingNeeded tc.fname),
            sm || (env.toolSkills.contains tc.fname
              && env.summarizeNeeded tc.fname)) := rfl
    rw [happ]
    by_cases hid : idTruthy tc.id
    · rw [if_neg (by simp [hid])]
      rw [ih]
      have hplace : loadingPlaceholders (tc :: rest)
          = toolMsgOf tc "Loading.." :: loadingPlaceholders rest := by
        unfold loadingPlaceholders
        rw [List.filterMap_cons, if_pos hid]
      have htruthy : truthyIds (tc :: rest)
          = tc.id.getD "" :: truthyIds rest := by
        unfold truthyIds
        rw [List.filterMap_cons, if_pos hid]
        cases hcid : tc.id with
        | none => rw [hcid] at hid; simp [idTruthy] at hid
        | some v => rfl
      rw [hplace, htruthy]
      unfold addToolResponse
      rw [if_pos (by simp [hid])]
      simp [toolMsgOf]
    · rw [if_pos (by simp [hid])]
      rw [ih]
      have hplace : loadingPlaceholders (tc :: rest)
          = loadingPlaceholders rest := by
        unfold loadingPlaceholders
        rw [List.filterMap_cons, if_neg hid]
      have htruthy : truthyIds (tc :: rest) = truthyIds rest := by
        unfold truthyIds
        rw [List.filterMap_cons, if_neg hid]
      rw [hplace, htruthy]

/-- State effect of `_add_gpt_response`: the assistant message and the
placeholders are appended, and the truthy ids become pending. -/
theorem addGptResponse_state (env : SkillEnv) (s : WState) (msg : Message)
    (tcs : List ToolCall) :
    (addGptResponse env s msg (some tcs)).1
      = { s with
          messages := (s.messages ++ [msg]) ++ loadingPlaceholders tcs,
          pending := s.pending ++ truthyIds tcs } := by
  unfold addGptResponse
  dsimp only
  by_cases hemp : tcs.isEmpty
  · rw [if_pos hemp]
    have : tcs = [] := List.isEmpty_iff.mp hemp
    subst this
    simp [loadingPlaceholders, truthyIds]
  · rw [if_neg hemp]
    have hfold := addGptStep_fold env tcs
      { s with messages := s.messages ++ [msg] } [] false false
    dsimp only
    rw [hfold]


/-- `toolIds` distributes over append. -/
theorem toolIds_append (a b : List Message) :
    toolIds (a ++ b) = toolIds a ++ toolIds b :=
  List.filterMap_append a b _

/-- `loadingIds` distributes over append. -/
theorem loadingIds_append (a b : List Message) :
    loadingIds (a ++ b) = loadingIds a ++ loadingIds b :=
  List.filterMap_append a b _

/-- The empty state satisfies the invariant. -/
theorem inv_init : Inv ⟨[], [], []⟩ :=
  ⟨List.nodup_nil, List.nodup_nil, by simp [loadingIds, toolIds]⟩

/-- Appending a non-tool message preserves the invariant. -/
theorem inv_append_nontool (s : WState) (m : Message)
    (hrole : m.role ≠ Role.tool) (hInv : Inv s) :
    Inv { s with messages := s.messages ++ [m] } := by
  obtain ⟨h1, h2, h3⟩ := hInv
  have htool : toolIds [m] = [] := by
    unfold toolIds
    rw [List.filterMap_cons, if_neg hrole]
    rfl
  have hload : loadingIds [m] = [] := by
    unfold loadingIds
    rw [List.filterMap_cons, if_neg (fun hc => hrole hc.1)]
    rfl
  refine ⟨h1, ?_, ?_⟩
  · dsimp only
    rw [toolIds_append, htool, List.append_nil]
    exact h2
  · intro x
    dsimp only
    rw [loadingIds_append, hload, List.append_nil]
    exact h3 x

/-- The pending sweep preserves duplicate-freeness. -/
theorem sweepPending_nodup (del : List Message) :
    ∀ (pend : List String), pend.Nodup → (sweepPending del pend).Nodup := by
  induction del with
  | nil => intro pend h; exact h
  | cons m rest ih =>
    intro pend h
    unfold sweepPending
    cases m.toolCallId with
    | none => exact ih pend h
    | some x0 =>
      dsimp only
      by_cases hc : m.role = Role.tool ∧ pend.contains x0
      · rw [if_pos hc]
        exact ih _ (h.erase x0)
      · rw [if_neg hc]
        exact ih pend h

/-- `_cleanup_conversation_history` preserves the invariant. -/
theorem inv_cleanup (remember : Option Nat) (s : WState) (hInv : Inv s) :
    Inv (cleanupConversationHistory remember s) := by
  cases remember with
  | none => exact hInv
  | some n =>
    unfold cleanupConversationHistory
    dsimp only
    by_cases hemp : s.messages.length = 0
    · rw [if_pos hemp]
      exact hInv
    · rw [if_neg hemp]
      rcases hpair : cutoffLoop s.messages.reverse s.messages.length 0 n
        with ⟨cutoff, count⟩
      dsimp only
      by_cases hcnt : count < n
      · rw [if_pos hcnt]
        exact hInv
      · rw [if_neg hcnt]
        obtain ⟨h1, h2, h3⟩ := hInv
        have hsplit : toolIds s.messages
            = toolIds (s.messages.take cutoff) ++ toolIds (s.messages.drop cutoff) := by
          conv_lhs => rw [← List.take_append_drop cutoff s.messages]
          exact toolIds_append _ _
        have hlsplit : loadingIds s.messages
            = loadingIds (s.messages.take cutoff)
              ++ loadingIds (s.messages.drop cutoff) := by
          conv_lhs => rw [← List.take_append_drop cutoff s.messages]
          exact loadingIds_append _ _
        have h2' : (toolIds (s.messages.take cutoff)
            ++ toolIds (s.messages.drop cutoff)).Nodup := hsplit ▸ h2
        refine ⟨sweepPending_nodup _ s.pending h1, h2'.of_append_right, ?_⟩
        intro x
        dsimp only
        rw [sweepPending_mem _ s.pending h1 x]
        rw [h3 x, hlsplit]
        constructor
        · rintro ⟨hl, hnt⟩
          rcases List.mem_append.mp hl with htake | hdrop
          · exact absurd (mem_toolIds_of_mem_loadingIds _ x htake) hnt
          · exact hdrop
        · intro hdrop
          refine ⟨List.mem_append.mpr (Or.inr hdrop), fun htake => ?_⟩
          exact (List.disjoint_of_nodup_append h2') htake
            (mem_toolIds_of_mem_loadingIds _ x hdrop)

/-- A completed `_add_tool_response` with a fresh id and a non-placeholder
response preserves the invariant. -/
theorem inv_toolResp (s : WState) (tc : ToolCall) (r : String)
    (hr : r ≠ "Loading..")
    (hfresh : ∀ x, tc.id = some x → x ∉ toolIds s.messages)
    (hInv : Inv s) : Inv (addToolResponse s tc r true) := by
  obtain ⟨h1, h2, h3⟩ := hInv
  rw [addToolResponse_completed]
  have hload : loadingIds [toolMsgOf tc r] = [] := by
    unfold loadingIds toolMsgOf
    rw [List.filterMap_cons, if_neg (fun hc => hr hc.2)]
    rfl
  have htool : toolIds [toolMsgOf tc r]
      = (match tc.id with | some x => [x] | none => []) := by
    unfold toolIds toolMsgOf
    rw [List.filterMap_cons, if_pos rfl]
    cases tc.id with
    | none => rfl
    | some x => rfl
  refine ⟨h1, ?_, ?_⟩
  · dsimp only
    rw [toolIds_append, htool]
    cases hcid : tc.id with
    | none => simpa using h2
    | some x =>
      refine List.Nodup.append h2 (by simp) ?_
      intro a ha hamem
      have hax : a = x := by simpa using hamem
      exact hfresh x hcid (hax ▸ ha)
  · intro x
    dsimp only
    rw [loadingIds_append, hload, List.append_nil]
    exact h3 x


/-- Placeholder list of a truthy-id cons. -/
theorem placeholders_cons_truthy (tc : ToolCall) (rest : List ToolCall)
    (hid : idTruthy tc.id = true) :
    loadingPlaceholders (tc :: rest)
      = toolMsgOf tc "Loading.." :: loadingPlaceholders rest := by
  unfold loadingPlaceholders
  rw [List.filterMap_cons, if_pos hid]

/-- Placeholder list of a falsy-id cons. -/
theorem placeholders_cons_falsy (tc : ToolCall) (rest : List ToolCall)
    (hid : ¬ idTruthy tc.id = true) :
    loadingPlaceholders (tc :: rest) = loadingPlaceholders rest := by
  unfold loadingPlaceholders
  rw [List.filterMap_cons, if_neg hid]

/-- Truthy ids of a truthy-id cons. -/
theorem truthyIds_cons_truthy (tc : ToolCall) (rest : List ToolCall)
    (v : String) (hcid : tc.id = some v) (hid : idTruthy tc.id = true) :
    truthyIds (tc :: rest) = v :: truthyIds rest := by
  unfold truthyIds
  rw [List.filterMap_cons, if_pos hid, hcid]

/-- Truthy ids of a falsy-id cons. -/
theorem truthyIds_cons_falsy (tc : ToolCall) (rest : List ToolCall)
    (hid : ¬ idTruthy tc.id = true) :
    truthyIds (tc :: rest) = truthyIds rest := by
  unfold truthyIds
  rw [List.filterMap_cons, if_neg hid]

/-- `toolIds` of a cons with a tool message carrying an id. -/
theorem toolIds_cons_tool (m : Message) (rest : List Message) (v : String)
    (hrole : m.role = Role.tool) (hcid : m.toolCallId = some v) :
    toolIds (m :: rest) = v :: toolIds rest := by
  unfold toolIds
  rw [List.filterMap_cons, if_pos hrole, hcid]

/-- `loadingIds` of a cons with a placeholder message. -/
theorem loadingIds_cons_loading (m : Message) (rest : List Message)
    (v : String) (hrole : m.role = Role.tool) (hcid : m.toolCallId = some v)
    (hcont : m.content = "Loading..") :
    loadingIds (m :: rest) = v :: loadingIds rest := by
  unfold loadingIds
  rw [List.filterMap_cons, if_pos ⟨hrole, hcont⟩, hcid]

/-- `loadingIds` of a cons with a non-placeholder message. -/
theorem loadingIds_cons_other (m : Message) (rest : List Message)
    (h : ¬(m.role = Role.tool ∧ m.content = "Loading..")) :
    loadingIds (m :: rest) = loadingIds rest := by
  unfold loadingIds
  rw [List.filterMap_cons, if_neg h]

/-- The ids of the created placeholders are the truthy ids. -/
theorem toolIds_placeholders (tcs : List ToolCall) :
    toolIds (loadingPlaceholders tcs) = truthyIds tcs := by
  induction tcs with
  | nil => rfl
  | cons tc rest ih =>
    by_cases hid : idTruthy tc.id
    · cases hcid : tc.id with
      | none => rw [hcid] at hid; simp [idTruthy] at hid
      | some v =>
        rw [placeholders_cons_truthy tc rest hid,
          truthyIds_cons_truthy tc rest v hcid hid,
          toolIds_cons_tool _ _ v rfl hcid, ih]
    · rw [placeholders_cons_falsy tc rest hid,
        truthyIds_cons_falsy tc rest hid, ih]

/-- The created placeholders all carry the `"Loading.."` content. -/
theorem loadingIds_placeholders (tcs : List ToolCall) :
    loadingIds (loadingPlaceholders tcs) = truthyIds tcs := by
  induction tcs with
  | nil => rfl
  | cons tc rest ih =>
    by_cases hid : idTruthy tc.id
    · cases hcid : tc.id with
      | none => rw [hcid] at hid; simp [idTruthy] at hid
      | some v =>
        rw [placeholders_cons_truthy tc rest hid,
          loadingIds_cons_loading _ _ v rfl hcid rfl,
          truthyIds_cons_truthy tc rest v hcid hid, ih]
    · rw [placeholders_cons_falsy tc rest hid,
        truthyIds_cons_falsy tc rest hid, ih]


/-- A truthy id comes from some tool call of the list. -/
theorem mem_truthyIds (tcs : List ToolCall) (x : String)
    (h : x ∈ truthyIds tcs) : ∃ tc ∈ tcs, tc.id = some x := by
  unfold truthyIds at h
  obtain ⟨tc, htc, hcond⟩ := List.mem_filterMap.mp h
  by_cases hid : idTruthy tc.id
  · rw [if_pos hid] at hcond
    exact ⟨tc, htc, hcond⟩
  · rw [if_neg hid] at hcond
    exact absurd hcond (by simp)

/-- The truthy ids form a sublist of all ids. -/
theorem truthyIds_sublist (tcs : List ToolCall) :
    (truthyIds tcs).Sublist (tcs.filterMap ToolCall.id) := by
  induction tcs with
  | nil => exact List.Sublist.refl _
  | cons tc rest ih =>
    rw [List.filterMap_cons]
    by_cases hid : idTruthy tc.id
    · cases hcid : tc.id with
      | none => rw [hcid] at hid; simp [idTruthy] at hid
      | some v =>
        rw [truthyIds_cons_truthy tc rest v hcid hid]
        dsimp only
        exact List.Sublist.cons₂ v ih
    · rw [truthyIds_cons_falsy tc rest hid]
      cases hcid : tc.id with
      | none => exact ih
      | some v =>
        dsimp only
        exact List.Sublist.cons v ih

/-- Distinct tool-call ids give distinct truthy ids. -/
theorem truthyIds_nodup (tcs : List ToolCall)
    (h : (tcs.filterMap ToolCall.id).Nodup) : (truthyIds tcs).Nodup :=
  (truthyIds_sublist tcs).nodup h

/-- `_add_gpt_response` with fresh, distinct tool-call ids preserves the
invariant. -/
theorem inv_gpt (env : SkillEnv) (s : WState) (msg : Message)
    (tcs : List ToolCall) (hrole : msg.role = Role.assistant)
    (hfresh : ∀ tc ∈ tcs, ∀ x, tc.id = some x →
      x ∉ toolIds s.messages ∧ x ∉ s.pending)
    (hnd : (tcs.filterMap ToolCall.id).Nodup)
    (hInv : Inv s) : Inv ((addGptResponse env s msg (some tcs)).1) := by
  obtain ⟨h1, h2, h3⟩ := hInv
  rw [addGptResponse_state]
  have hrt : ¬ msg.role = Role.tool := by rw [hrole]; exact fun hc => by cases hc
  have htoolmsg : toolIds [msg] = [] := by
    unfold toolIds
    rw [List.filterMap_cons, if_neg hrt]
    rfl
  have hloadmsg : loadingIds [msg] = [] := by
    unfold loadingIds
    rw [List.filterMap_cons, if_neg (fun hc => hrt hc.1)]
    rfl
  have htnd := truthyIds_nodup tcs hnd
  have hdisj1 : ∀ x ∈ truthyIds tcs, x ∉ toolIds s.messages ∧ x ∉ s.pending := by
    intro x hx
    obtain ⟨tc, htc, hcid⟩ := mem_truthyIds tcs x hx
    exact hfresh tc htc x hcid
  refine ⟨?_, ?_, ?_⟩
  · dsimp only
    refine List.Nodup.append h1 htnd ?_
    intro a ha hamem
    exact (hdisj1 a hamem).2 ha
  · dsimp only
    rw [toolIds_append, toolIds_append, htoolmsg, List.append_nil,
      toolIds_placeholders]
    refine List.Nodup.append h2 htnd ?_
    intro a ha hamem
    exact (hdisj1 a hamem).1 ha
  · intro x
    dsimp only
    rw [loadingIds_append, loadingIds_append, hloadmsg, List.append_nil,
      loadingIds_placeholders]
    rw [List.mem_append, List.mem_append, h3 x]


/-- `_update_tool_response` with a response other than the placeholder
text preserves the invariant. -/
theorem inv_upd (s : WState) (x r : String) (hr : r ≠ "Loading..")
    (hInv : Inv s) : Inv ((updateToolResponse s x r).1) := by
  by_cases hx : x = ""
  · subst hx
    have heq : updateToolResponse s "" r = (s, some false) := by
      unfold updateToolResponse
      rw [if_pos rfl]
    rw [heq]
    exact hInv
  · cases hfind : lastToolMatchIdx s.messages x with
    | none =>
      have heq : updateToolResponse s x r = (s, some false) := by
        unfold updateToolResponse
        rw [if_neg hx, hfind]
      rw [heq]
      exact hInv
    | some p =>
      obtain ⟨h1, h2, h3⟩ := hInv
      obtain ⟨hplen, ⟨mp, hget, hrole, hcid⟩, hmax⟩ :=
        lastToolMatchIdx_spec s.messages x p hfind
      obtain ⟨hpend, hlu, hperm⟩ := updateToolResponse_found s x r p hx hfind
      have hgd : s.messages.getD p default = mp := by
        rw [List.getD_eq_getElem?_getD, ← List.get?_eq_getElem?, hget]
        rfl
      have hgetel : s.messages[p] = mp := by
        have h' := hget
        rw [List.get?_eq_getElem?, List.getElem?_eq_getElem hplen] at h'
        exact Option.some.inj h'
      have hsetd : s.messages.set p
          { s.messages.getD p default with content := r }
          = s.messages.take p ++ ({ mp with content := r } : Message)
            :: s.messages.drop (p + 1) := by
        rw [hgd, List.set_eq_take_append_cons_drop, if_pos hplen]
      have horig : s.messages
          = s.messages.take p ++ mp :: s.messages.drop (p + 1) := by
        conv_lhs => rw [← List.take_append_drop p s.messages,
          List.drop_eq_getElem_cons hplen, hgetel]
      have htid_orig : toolIds s.messages
          = toolIds (s.messages.take p)
            ++ x :: toolIds (s.messages.drop (p + 1)) := by
        conv_lhs => rw [horig]
        rw [toolIds_append, toolIds_cons_tool mp _ x hrole hcid]
      have htids : toolIds (s.messages.set p
          { s.messages.getD p default with content := r })
          = toolIds s.messages := by
        rw [hsetd]
        conv_rhs => rw [htid_orig]
        rw [toolIds_append,
          toolIds_cons_tool ({ mp with content := r } : Message) _ x hrole hcid]
      have h2split : (toolIds (s.messages.take p)
          ++ x :: toolIds (s.messages.drop (p + 1))).Nodup := htid_orig ▸ h2
      have hxA : x ∉ toolIds (s.messages.take p) := by
        intro hcontra
        exact (List.disjoint_of_nodup_append h2split) hcontra
          (List.mem_cons_self x _)
      have hxB : x ∉ toolIds (s.messages.drop (p + 1)) := by
        have := h2split.of_append_right
        rw [List.nodup_cons] at this
        exact this.1
      have hpermtool : (toolIds ((updateToolResponse s x r).1.messages)).Perm
          (toolIds (s.messages.set p
            { s.messages.getD p default with content := r })) :=
        List.Perm.filterMap _ hperm
      have hpermload : (loadingIds ((updateToolResponse s x r).1.messages)).Perm
          (loadingIds (s.messages.set p
            { s.messages.getD p default with content := r })) :=
        List.Perm.filterMap _ hperm
      have hload' : loadingIds (s.messages.set p
          { s.messages.getD p default with content := r })
          = loadingIds (s.messages.take p)
            ++ loadingIds (s.messages.drop (p + 1)) := by
        rw [hsetd]
        rw [loadingIds_append, loadingIds_cons_other _ _ (fun hc => hr hc.2)]
      by_cases hloadmp : mp.content = "Loading.."
      · have hlo : loadingIds s.messages
            = loadingIds (s.messages.take p)
              ++ x :: loadingIds (s.messages.drop (p + 1)) := by
          conv_lhs => rw [horig]
          rw [loadingIds_append,
            loadingIds_cons_loading mp _ x hrole hcid hloadmp]
        have hxpend : x ∈ s.pending := by
          rw [h3 x, hlo]
          exact List.mem_append.mpr (Or.inr (List.mem_cons_self x _))
        have hcont : s.pending.contains x = true := by simpa using hxpend
        refine ⟨?_, ?_, ?_⟩
        · rw [hpend, if_pos hcont]
          exact h1.erase x
        · rw [hpermtool.nodup_iff, htids]
          exact h2
        · intro y
          rw [hpend, if_pos hcont, h1.mem_erase_iff, hpermload.mem_iff,
            hload', h3 y, hlo]
          constructor
          · rintro ⟨hne, hmem⟩
            rcases List.mem_append.mp hmem with hA | hB
            · exact List.mem_append.mpr (Or.inl hA)
            · rcases List.mem_cons.mp hB with hEq | hC
              · exact absurd hEq hne
              · exact List.mem_append.mpr (Or.inr hC)
          · intro hmem
            rcases List.mem_append.mp hmem with hA | hC
            · refine ⟨?_, List.mem_append.mpr (Or.inl hA)⟩
              intro hEq
              exact hxA (hEq ▸ mem_toolIds_of_mem_loadingIds _ y hA)
            · refine ⟨?_,
                List.mem_append.mpr (Or.inr (List.mem_cons_of_mem _ hC))⟩
              intro hEq
              exact hxB (hEq ▸ mem_toolIds_of_mem_loadingIds _ y hC)
      · have hlo : loadingIds s.messages
            = loadingIds (s.messages.take p)
              ++ loadingIds (s.messages.drop (p + 1)) := by
          conv_lhs => rw [horig]
          rw [loadingIds_append,
            loadingIds_cons_other _ _ (fun hc => hloadmp hc.2)]
        have hxnotpend : x ∉ s.pending := by
          intro hcontra
          rw [h3 x, hlo] at hcontra
          rcases List.mem_append.mp hcontra with hA | hB
          · exact hxA (mem_toolIds_of_mem_loadingIds _ x hA)
          · exact hxB (mem_toolIds_of_mem_loadingIds _ x hB)
        have hcont : ¬ s.pending.contains x = true := by
          intro hc
          exact hxnotpend (by simpa using hc)
        refine ⟨?_, ?_, ?_⟩
        · rw [hpend, if_neg hcont]
          exact h1
        · rw [hpermtool.nodup_iff, htids]
          exact h2
        · intro y
          rw [hpend, if_neg hcont, hpermload.mem_iff, hload', h3 y, hlo]



/-- `add_user_message` preserves the invariant. -/
theorem inv_user (remember : Option Nat) (s : WState) (c : String)
    (hInv : Inv s) : Inv (addUserMessage remember s c) := by
  unfold addUserMessage
  exact inv_append_nontool _ _ (fun hc => Role.noConfusion hc)
    (inv_cleanup remember s hInv)

/-- Every reachable state satisfies the pending-set invariant. -/
theorem reach_inv (env : SkillEnv) (remember : Option Nat) (s : WState)
    (h : Reach env remember s) : Inv s := by
  induction h with
  | init => exact inv_init
  | user s c hsub ih => exact inv_user remember s c ih
  | gpt s msg tcs hsub hrole hfresh hnd ih =>
    exact inv_gpt env s msg tcs hrole hfresh hnd ih
  | upd s x r hsub hr ih => exact inv_upd s x r hr ih
  | toolResp s tc r hsub hr hfresh ih => exact inv_toolResp s tc r hr hfresh ih
  | cleanup s hsub ih => exact inv_cleanup remember s ih

/-- **C2** (amended, proved): in every state reachable by
`add_user_message`, `_add_gpt_response` (fresh tool-call ids),
`_update_tool_response` and completed `_add_tool_response` appends with
responses other than the literal `"Loading.."` (and fresh appended ids),
and `_cleanup_conversation_history` — excluding
`reset_conversation_history` — the pending list contains exactly the
`tool_call_id`s of the tool messages whose content is still the
`"Loading.."` placeholder. -/
theorem c2_pending_consistency (env : SkillEnv) (remember : Option Nat)
    (s : WState) (h : Reach env remember s) :
    ∀ x, x ∈ s.pending
      ↔ ∃ m ∈ s.messages, m.role = Role.tool ∧ m.toolCallId = some x
          ∧ m.content = "Loading.." := by
  intro x
  rw [(reach_inv env remember s h).2.2 x]
  exact loadingIds_mem_iff s.messages x

/-- Witness for C2 at a concrete reachable state with a pending
placeholder. -/
theorem c2_pending_consistency_witness :
    "a" ∈ c2ReachState.pending
      ↔ ∃ m ∈ c2ReachState.messages, m.role = Role.tool
          ∧ m.toolCallId = some "a" ∧ m.content = "Loading.." := by
  have hreach : Reach SkillEnv.empty none c2ReachState := by
    refine Reach.gpt _ _ _ (Reach.user _ _ Reach.init) rfl ?_ (by decide)
    intro tc htc x hx
    have htca : tc = tcA := by simpa using htc
    subst htca
    have hxa : x = "a" := by
      have := hx
      simp [tcA] at this
      exact this.symm
    subst hxa
    exact ⟨by decide, by decide⟩
  exact c2_pending_consistency SkillEnv.empty none c2ReachState hreach "a"


end Wingman
